import Mathlib

/-!
Verification of the voxpop-vote integrity core against its specification.

The development shallowly embeds the TypeScript sources:
  - `VoteHashChain` (hash-chain.ts): blocks, `addVote`, `verify`, `fromBlocks`;
  - `MerkleTree` (merkle-tree.ts): layers, root, proofs, proof verification;
  - `NullifierStore` (nullifier.ts): `consume` / `check`;
  - `VoteModule` (vote-module.ts): polls, `createPoll`, `getPoll`, `listPolls`,
    `castVote`, modelled as explicit state passing.

Modelling conventions:
  - SHA-256 is treated as an abstract digest function `H : String → String`;
    theorems that need tamper evidence assume `H` injective (ideal hash).
  - JS `number` values that the code confines to integers are `Int`;
    array indices and counts are `Nat`.
  - `new Date()` instants are oracle inputs: `Nat` milliseconds for poll
    timing, and the block/record timestamp string is the decimal rendering
    of that clock (an injective stand-in for `toISOString`).
  - JS template-literal rendering of an integer is `intRepr` below, the
    standard decimal rendering, defined from scratch so that its
    injectivity is provable.
-/

/-- Decimal digit character for a value below ten (JS number rendering). -/
def digitChar : Nat → Char
  | 0 => '0' | 1 => '1' | 2 => '2' | 3 => '3' | 4 => '4'
  | 5 => '5' | 6 => '6' | 7 => '7' | 8 => '8' | 9 => '9'
  | _ => '*'

/-- Numeric value of a decimal digit character. -/
def charVal (c : Char) : Nat := c.toNat - 48

/-- Fuelled big-endian decimal digit list; fuel above the value suffices. -/
def digitsOfAux : Nat → Nat → List Char
  | 0, _ => []
  | fuel + 1, n =>
    if n < 10 then [digitChar n]
    else digitsOfAux fuel (n / 10) ++ [digitChar (n % 10)]

/-- Big-endian decimal digit list of a natural number. -/
def digitsOf (n : Nat) : List Char := digitsOfAux (n + 1) n

theorem digitsOfAux_congr :
    ∀ (n f f' : Nat), n < f → n < f' → digitsOfAux f n = digitsOfAux f' n := by
  intro n
  induction n using Nat.strong_induction_on with
  | _ n ih =>
    intro f f' hf hf'
    match f, f' with
    | fa + 1, fb + 1 =>
      simp only [digitsOfAux]
      split
      · rfl
      · next h =>
        rw [ih (n / 10) (Nat.div_lt_self (by omega) (by omega)) fa fb (by omega) (by omega)]

/-- The intended recurrence of `digitsOf`. -/
theorem digitsOf_eq (n : Nat) :
    digitsOf n = if n < 10 then [digitChar n]
      else digitsOf (n / 10) ++ [digitChar (n % 10)] := by
  show digitsOfAux (n + 1) n = _
  simp only [digitsOfAux]
  split
  · rfl
  · next h =>
    rw [digitsOfAux_congr (n / 10) n (n / 10 + 1) (by omega) (by omega)]
    rfl

/-- Folding a digit list back to its value. -/
def valOf (l : List Char) : Nat := l.foldl (fun acc c => 10 * acc + charVal c) 0

theorem valOf_append_singleton (l : List Char) (c : Char) :
    valOf (l ++ [c]) = 10 * valOf l + charVal c := by
  simp [valOf, List.foldl_append]

theorem charVal_digitChar {n : Nat} (h : n < 10) : charVal (digitChar n) = n := by
  interval_cases n <;> decide

theorem valOf_digitsOf (n : Nat) : valOf (digitsOf n) = n := by
  induction n using Nat.strong_induction_on with
  | _ n ih =>
    rw [digitsOf_eq]
    split
    · next h =>
      simpa [valOf] using charVal_digitChar h
    · next h =>
      rw [valOf_append_singleton, ih (n / 10) (Nat.div_lt_self (by omega) (by omega)),
        charVal_digitChar (Nat.mod_lt _ (by omega))]
      omega

theorem digitsOf_injective : Function.Injective digitsOf := by
  intro m n h
  have := valOf_digitsOf m
  rw [h, valOf_digitsOf] at this
  omega

/-- Every character produced by `digitsOf` is a decimal digit. -/
theorem digitsOf_mem_digit {n : Nat} {c : Char} (h : c ∈ digitsOf n) :
    48 ≤ c.toNat ∧ c.toNat ≤ 57 := by
  induction n using Nat.strong_induction_on with
  | _ n ih =>
    rw [digitsOf_eq] at h
    split at h
    · next hlt =>
      simp only [List.mem_singleton] at h
      subst h
      interval_cases n <;> decide
    · next hlt =>
      rcases List.mem_append.mp h with h1 | h2
      · exact ih (n / 10) (Nat.div_lt_self (by omega) (by omega)) h1
      · simp only [List.mem_singleton] at h2
        subst h2
        have : n % 10 < 10 := Nat.mod_lt _ (by omega)
        interval_cases hm : (n % 10) <;> simp_all <;> decide

theorem digitsOf_ne_nil (n : Nat) : digitsOf n ≠ [] := by
  rw [digitsOf_eq]; split <;> simp

/-- Decimal rendering of a natural number, as a string. -/
def natRepr (n : Nat) : String := ⟨digitsOf n⟩

/-- JS template-literal rendering of an integer (decimal, `-` sign). -/
def intRepr : Int → String
  | .ofNat n => natRepr n
  | .negSucc m => "-" ++ natRepr (m + 1)

theorem natRepr_injective : Function.Injective natRepr := by
  intro m n h
  exact digitsOf_injective (congrArg String.data h)

theorem intRepr_injective : Function.Injective intRepr := by
  intro i j h
  cases i with
  | ofNat m =>
    cases j with
    | ofNat n =>
      exact congrArg Int.ofNat (natRepr_injective h)
    | negSucc n =>
      exfalso
      have hd := congrArg String.data h
      simp only [intRepr, natRepr, String.data_append] at hd
      cases hm : digitsOf m with
      | nil => exact digitsOf_ne_nil m hm
      | cons c cs =>
        rw [hm] at hd
        have hc : c = '-' := by
          have h45 : ('-' :: digitsOf (n + 1)) = ['-'] ++ digitsOf (n + 1) := rfl
          rw [← h45] at hd
          exact (List.cons.injEq _ _ _ _ ▸ hd).1
        have hmem := digitsOf_mem_digit (hm ▸ List.mem_cons_self c cs)
        rw [hc] at hmem
        revert hmem
        decide
  | negSucc m =>
    cases j with
    | ofNat n =>
      exfalso
      have hd := congrArg String.data h
      simp only [intRepr, natRepr, String.data_append] at hd
      cases hn : digitsOf n with
      | nil => exact digitsOf_ne_nil n hn
      | cons c cs =>
        rw [hn] at hd
        have hc : c = '-' := by
          have h45 : ('-' :: digitsOf (m + 1)) = ['-'] ++ digitsOf (m + 1) := rfl
          rw [← h45] at hd
          exact ((List.cons.injEq _ _ _ _ ▸ hd).1).symm
        have hmem := digitsOf_mem_digit (hn ▸ List.mem_cons_self c cs)
        rw [hc] at hmem
        revert hmem
        decide
    | negSucc n =>
      have hd := congrArg String.data h
      simp only [intRepr, natRepr, String.data_append] at hd
      have hds : digitsOf (m + 1) = digitsOf (n + 1) := by
        have h45 : ∀ l : List Char, ('-' :: l) = ['-'] ++ l := fun _ => rfl
        rw [← h45, ← h45] at hd
        exact (List.cons.injEq _ _ _ _ ▸ hd).2
      have := digitsOf_injective hds
      exact congrArg Int.negSucc (by omega)

/-- Middle-component cancellation for string concatenation. -/
theorem string_append_middle_inj (a b x y : String)
    (h : a ++ x ++ b = a ++ y ++ b) : x = y := by
  have hd := congrArg String.data h
  simp only [String.data_append] at hd
  have h1 := List.append_cancel_right hd
  have h2 := List.append_cancel_left h1
  cases x; cases y; exact congrArg String.mk h2

-- ============================================================
-- Hash chain (hash-chain.ts)
-- ============================================================

/-- Kernel-computable embedding of `String.trim`: drop whitespace from
both ends (the core library version does not reduce in the kernel). -/
def strTrim (s : String) : String :=
  ⟨((s.data.dropWhile Char.isWhitespace).reverse.dropWhile Char.isWhitespace).reverse⟩

/-- Kernel-computable embedding of `String.toUpperCase`. -/
def strUpper (s : String) : String := ⟨s.data.map Char.toUpper⟩

/-- A block of the vote hash chain; all seven serialized fields. -/
structure VoteBlock where
  index : Int
  previousHash : String
  hash : String
  timestamp : String
  pollId : String
  nullifierHash : String
  choiceIndex : Int
deriving DecidableEq, Repr, Inhabited

/-- Result record returned by chain verification. -/
structure ChainVerificationResult where
  isValid : Bool
  blocksChecked : Nat
  firstInvalidBlock : Int
  error : Option String
deriving DecidableEq, Repr

/-- The previous hash of the genesis block: 64 zero hex characters. -/
def GENESIS_PREVIOUS_HASH : String :=
  "0000000000000000000000000000000000000000000000000000000000000000"

/-- The poll id stored in the genesis block. -/
def GENESIS_POLL_ID : String := "GENESIS"

/-- Digest of a block's contents: `H` applied to the pipe-joined fields,
exactly as `computeBlockHash` in the source. -/
def computeBlockHash (H : String → String) (index : Int)
    (previousHash timestamp pollId nullifierHash : String)
    (choiceIndex : Int) : String :=
  H (intRepr index ++ "|" ++ previousHash ++ "|" ++ timestamp ++ "|" ++
    pollId ++ "|" ++ nullifierHash ++ "|" ++ intRepr choiceIndex)

/-- The chain aggregate: poll id, ordered blocks, and the internal
nullifier set (JS `Set`, modelled as an insertion-ordered list). -/
structure VoteHashChain where
  pollId : String
  blocks : List VoteBlock
  usedNullifiers : List String
deriving DecidableEq, Repr, Inhabited

/-- The `VoteHashChain` constructor: rejects an empty poll id, otherwise
produces the chain holding only the genesis block. -/
def createChain (H : String → String) (pollId : String) (timestamp : String) :
    Except String VoteHashChain :=
  if strTrim pollId = "" then .error "Poll ID cannot be empty"
  else
    let hash := computeBlockHash H 0 GENESIS_PREVIOUS_HASH timestamp GENESIS_POLL_ID "0" (-1)
    .ok ⟨pollId, [⟨0, GENESIS_PREVIOUS_HASH, hash, timestamp, GENESIS_POLL_ID, "0", -1⟩], []⟩

/-- Outcome of `addVote`: `rejected` is the `null` return (duplicate
nullifier), `invalidChoice` is the thrown validation error. -/
inductive AddVoteAns where
  | rejected
  | invalidChoice
  | added (block : VoteBlock)
deriving DecidableEq, Repr

/-- `addVote`, state-passing: returns the answer and the updated chain.
The source checks the duplicate nullifier before validating the choice.
With integral choices, `Number.isInteger` always holds, so the choice
validation reduces to the sign check. -/
def addVote (H : String → String) (c : VoteHashChain)
    (nullifierHash : String) (choiceIndex : Int) (timestamp : String) :
    AddVoteAns × VoteHashChain :=
  if nullifierHash ∈ c.usedNullifiers then (.rejected, c)
  else if choiceIndex < 0 then (.invalidChoice, c)
  else
    let previousBlock := c.blocks.getLastD default
    let index := previousBlock.index + 1
    let hash := computeBlockHash H index previousBlock.hash timestamp c.pollId
      nullifierHash choiceIndex
    let block : VoteBlock :=
      ⟨index, previousBlock.hash, hash, timestamp, c.pollId, nullifierHash, choiceIndex⟩
    (.added block, ⟨c.pollId, c.blocks ++ [block], c.usedNullifiers ++ [nullifierHash]⟩)

/-- The verification loop of `verify`: position `i`, hash of the previous
block, remaining blocks. Checks, in source order: sequential index,
recomputed digest, link to the previous block (skipped at the genesis). -/
def verifyGo (H : String → String) (prevHash : String) (i : Nat) :
    List VoteBlock → ChainVerificationResult
  | [] => ⟨true, i, -1, none⟩
  | b :: bs =>
    if b.index ≠ (i : Int) then
      ⟨false, i + 1, (i : Int), some "wrong index"⟩
    else if b.hash ≠ computeBlockHash H b.index b.previousHash b.timestamp
        b.pollId b.nullifierHash b.choiceIndex then
      ⟨false, i + 1, (i : Int), some "hash mismatch"⟩
    else if 0 < i ∧ b.previousHash ≠ prevHash then
      ⟨false, i + 1, (i : Int), some "previousHash mismatch"⟩
    else verifyGo H b.hash (i + 1) bs

/-- `verify`: empty-chain guard, genesis previous-hash check, then the
block-by-block loop from index 0. -/
def VoteHashChain.verify (H : String → String) (c : VoteHashChain) :
    ChainVerificationResult :=
  match c.blocks with
  | [] => ⟨false, 0, 0, some "Chain is empty (no genesis block)"⟩
  | g :: gs =>
    if g.previousHash ≠ GENESIS_PREVIOUS_HASH then
      ⟨false, 1, 0, some "Genesis block has invalid previous hash"⟩
    else verifyGo H "" 0 (g :: gs)

/-- Block count including the genesis block. -/
def VoteHashChain.length (c : VoteHashChain) : Nat := c.blocks.length

/-- Number of votes recorded (blocks minus genesis). -/
def VoteHashChain.voteCount (c : VoteHashChain) : Nat := c.blocks.length - 1

/-- `fromBlocks`: reconstructs a chain from an exported block list,
rebuilds the nullifier set from the non-genesis blocks, and returns the
chain only when `verify` passes. -/
def VoteHashChain.fromBlocks (H : String → String) (pollId : String)
    (blocks : List VoteBlock) : Option VoteHashChain :=
  if blocks.isEmpty then none
  else
    let nullifierSet := (blocks.filter (fun b => 0 < b.index)).map VoteBlock.nullifierHash
    let chain : VoteHashChain := ⟨pollId, blocks, nullifierSet⟩
    if (VoteHashChain.verify H chain).isValid then some chain else none

instance exceptDecEq {ε α : Type} [DecidableEq ε] [DecidableEq α] :
    DecidableEq (Except ε α) := fun a b =>
  match a, b with
  | .error e, .error e' =>
    if h : e = e' then .isTrue (by rw [h]) else .isFalse (fun hc => h (Except.error.inj hc))
  | .error _, .ok _ => .isFalse (fun hc => Except.noConfusion hc)
  | .ok _, .error _ => .isFalse (fun hc => Except.noConfusion hc)
  | .ok v, .ok v' =>
    if h : v = v' then .isTrue (by rw [h]) else .isFalse (fun hc => h (Except.ok.inj hc))

-- ============================================================
-- Chain well-formedness and verification lemmas
-- ============================================================

/-- Blocks starting at position `i` whose checks all pass: sequential
indices, recomputable digests, and back-links (`prevHash` is the digest
of the block before position `i`; not consulted when `i = 0`). -/
def BlocksOkFrom (H : String → String) (prevHash : String) (i : Nat) :
    List VoteBlock → Prop
  | [] => True
  | b :: bs =>
    b.index = (i : Int) ∧
    b.hash = computeBlockHash H b.index b.previousHash b.timestamp
      b.pollId b.nullifierHash b.choiceIndex ∧
    (0 < i → b.previousHash = prevHash) ∧
    BlocksOkFrom H b.hash (i + 1) bs

/-- A chain in the state maintained by the constructor and `addVote`. -/
def ChainOk (H : String → String) (c : VoteHashChain) : Prop :=
  c.blocks ≠ [] ∧
  (c.blocks.headD default).previousHash = GENESIS_PREVIOUS_HASH ∧
  BlocksOkFrom H "" 0 c.blocks ∧
  (c.blocks.getLastD default).index = (c.blocks.length : Int) - 1

theorem verifyGo_of_blocksOkFrom (H : String → String) :
    ∀ (bs : List VoteBlock) (prevHash : String) (i : Nat),
      BlocksOkFrom H prevHash i bs →
      verifyGo H prevHash i bs = ⟨true, i + bs.length, -1, none⟩ := by
  intro bs
  induction bs with
  | nil => intro prevHash i _; simp [verifyGo]
  | cons b bs ih =>
    intro prevHash i hok
    obtain ⟨hidx, hhash, hlink, hrest⟩ := hok
    rw [verifyGo]
    rw [if_neg (by simp [hidx]), if_neg (by simp [← hhash])]
    rw [if_neg (by rintro ⟨hi, hne⟩; exact hne (hlink hi))]
    rw [ih b.hash (i + 1) hrest]
    simp only [List.length_cons]
    congr 1
    omega

/-- A well-formed chain verifies: valid, all blocks checked, no invalid
block reported. -/
theorem verify_of_chainOk (H : String → String) (c : VoteHashChain)
    (h : ChainOk H c) :
    VoteHashChain.verify H c = ⟨true, c.length, -1, none⟩ := by
  obtain ⟨hne, hgen, hok, _⟩ := h
  cases hb : c.blocks with
  | nil => exact absurd hb hne
  | cons g gs =>
    have hgen' : g.previousHash = GENESIS_PREVIOUS_HASH := by
      rw [hb] at hgen; simpa using hgen
    have hgo := verifyGo_of_blocksOkFrom H c.blocks "" 0 hok
    rw [hb] at hgo
    simp only [VoteHashChain.verify, hb]
    rw [if_neg (by simp [hgen']), hgo]
    simp [VoteHashChain.length, hb]

theorem blocksOkFrom_append (H : String → String) :
    ∀ (bs : List VoteBlock) (prevHash : String) (i : Nat) (b' : VoteBlock),
      bs ≠ [] →
      BlocksOkFrom H prevHash i bs →
      b'.index = ((i + bs.length : Nat) : Int) →
      b'.previousHash = (bs.getLastD default).hash →
      b'.hash = computeBlockHash H b'.index b'.previousHash b'.timestamp
        b'.pollId b'.nullifierHash b'.choiceIndex →
      BlocksOkFrom H prevHash i (bs ++ [b']) := by
  intro bs
  induction bs with
  | nil => intro _ _ _ hne; exact absurd rfl hne
  | cons b bs ih =>
    intro prevHash i b' _ hok hidx hprev hhash
    obtain ⟨h1, h2, h3, h4⟩ := hok
    cases bs with
    | nil =>
      refine ⟨h1, h2, h3, ?_⟩
      refine ⟨?_, hhash, ?_, trivial⟩
      · rw [hidx]; simp
      · intro _
        simpa using hprev
    | cons b2 bs2 =>
      refine ⟨h1, h2, h3, ?_⟩
      refine ih b.hash (i + 1) b' (by simp) h4 ?_ ?_ hhash
      · rw [hidx]; simp only [List.length_cons]; congr 1; omega
      · rw [hprev]
        rfl

theorem headD_append_left {α : Type} [Inhabited α] (l m : List α) (h : l ≠ []) :
    (l ++ m).headD default = l.headD default := by
  cases l with
  | nil => exact absurd rfl h
  | cons a l => rfl

/-- The constructor's output is well-formed. -/
theorem chainOk_createChain (H : String → String) (pollId timestamp : String)
    (c : VoteHashChain) (h : createChain H pollId timestamp = .ok c) :
    ChainOk H c := by
  rw [createChain] at h
  split at h
  · exact absurd h (by simp)
  · obtain rfl := Except.ok.inj h
    refine ⟨by simp, rfl, ?_, by simp⟩
    exact ⟨rfl, rfl, by intro hc; exact absurd hc (by omega), trivial⟩

/-- A successful `addVote` preserves well-formedness; the answer block is
the appended one, carrying the next index and the previous digest. -/
theorem chainOk_addVote (H : String → String) (c : VoteHashChain)
    (n : String) (ch : Int) (ts : String) (b : VoteBlock) (c' : VoteHashChain)
    (h : addVote H c n ch ts = (.added b, c'))
    (hok : ChainOk H c) :
    ChainOk H c' ∧ c'.blocks = c.blocks ++ [b] ∧
      c'.usedNullifiers = c.usedNullifiers ++ [n] ∧ c'.pollId = c.pollId := by
  obtain ⟨hne, hgen, hblocks, hlast⟩ := hok
  rw [addVote] at h
  split at h
  · exact absurd h (by simp)
  · split at h
    · exact absurd h (by simp)
    · obtain ⟨rfl, rfl⟩ : b = _ ∧ c' = _ := by
        have h1 := congrArg Prod.fst h
        have h2 := congrArg Prod.snd h
        simp only at h1 h2
        exact ⟨(AddVoteAns.added.inj h1.symm), h2.symm⟩
      refine ⟨⟨by simp [hne], ?_, ?_, ?_⟩, rfl, rfl, rfl⟩
      · simp only
        rw [headD_append_left c.blocks _ hne]
        exact hgen
      · refine blocksOkFrom_append H c.blocks "" 0 _ hne hblocks ?_ rfl rfl
        simp only
        omega
      · simp only [List.getLastD_concat, List.length_append]
        rw [hlast]
        simp only [List.length_singleton]
        push_cast
        omega

/-- Folding a vote sequence (nullifier, choice, timestamp) into a chain
through `addVote`, keeping only the state as the source's call site does. -/
def buildChain (H : String → String) (c : VoteHashChain) :
    List (String × Int × String) → VoteHashChain
  | [] => c
  | (n, ch, ts) :: rest => buildChain H (addVote H c n ch ts).2 rest

/-- Key step lemma for append sequences: with a fresh nullifier and a
valid choice, `addVote` takes its success branch. -/
theorem addVote_success (H : String → String) (c : VoteHashChain)
    (n : String) (ch : Int) (ts : String)
    (hn : n ∉ c.usedNullifiers) (hch : 0 ≤ ch) :
    ∃ b, addVote H c n ch ts = (.added b, (addVote H c n ch ts).2) ∧
      (addVote H c n ch ts).2.blocks = c.blocks ++ [b] ∧
      (addVote H c n ch ts).2.usedNullifiers = c.usedNullifiers ++ [n] := by
  rw [addVote]
  rw [if_neg hn, if_neg (by omega)]
  exact ⟨_, rfl, rfl, rfl⟩

theorem buildChain_ok (H : String → String) :
    ∀ (votes : List (String × Int × String)) (c : VoteHashChain),
      ChainOk H c →
      (∀ v ∈ votes, 0 ≤ v.2.1) →
      (votes.map Prod.fst).Nodup →
      (∀ v ∈ votes, v.1 ∉ c.usedNullifiers) →
      ChainOk H (buildChain H c votes) ∧
        (buildChain H c votes).blocks.length = c.blocks.length + votes.length ∧
        (buildChain H c votes).usedNullifiers =
          c.usedNullifiers ++ votes.map Prod.fst := by
  intro votes
  induction votes with
  | nil =>
    intro c hok _ _ _
    exact ⟨hok, by simp [buildChain], by simp [buildChain]⟩
  | cons v rest ih =>
    intro c hok hch hnd hfresh
    obtain ⟨n, ch, ts⟩ := v
    have hn : n ∉ c.usedNullifiers := hfresh _ (List.mem_cons_self _ _)
    have hch0 : (0 : Int) ≤ ch := hch _ (List.mem_cons_self _ _)
    obtain ⟨b, hstep, hblocks, hused⟩ := addVote_success H c n ch ts hn hch0
    have hok' := chainOk_addVote H c n ch ts b _ hstep hok
    rw [buildChain]
    have hres := ih (addVote H c n ch ts).2 hok'.1
      (fun w hw => hch w (List.mem_cons_of_mem _ hw))
      (List.Nodup.of_cons hnd)
      (by
        intro w hw
        rw [hused]
        simp only [List.mem_append, List.mem_singleton]
        rintro (hin | rfl)
        · exact hfresh w (List.mem_cons_of_mem _ hw) hin
        · have : w.1 ∈ (rest.map Prod.fst) := List.mem_map_of_mem Prod.fst hw
          rw [List.map_cons] at hnd
          exact (List.nodup_cons.mp hnd).1 this)
    refine ⟨hres.1, ?_, ?_⟩
    · have h1 := hres.2.1
      rw [hblocks] at h1
      rw [h1]
      simp only [List.length_append, List.length_cons, List.length_nil]
      omega
    · rw [hres.2.2, hused]
      simp

/-- C2. Every chain made by the constructor and extended by successful
`addVote` calls with pairwise-distinct nullifiers and non-negative integer
choices verifies: `isValid = true`, `blocksChecked` equal to the block
count including the genesis block, and `firstInvalidBlock = -1`. -/
theorem verify_valid_after_distinct_appends (H : String → String)
    (pollId ts0 : String) (c0 : VoteHashChain)
    (votes : List (String × Int × String))
    (hcreate : createChain H pollId ts0 = .ok c0)
    (hch : ∀ v ∈ votes, 0 ≤ v.2.1)
    (hnd : (votes.map Prod.fst).Nodup) :
    VoteHashChain.verify H (buildChain H c0 votes) =
      ⟨true, (buildChain H c0 votes).length, -1, none⟩ ∧
      (buildChain H c0 votes).length = votes.length + 1 := by
  have hok0 := chainOk_createChain H pollId ts0 c0 hcreate
  have hused0 : c0.usedNullifiers = [] := by
    rw [createChain] at hcreate
    split at hcreate
    · exact absurd hcreate (by simp)
    · obtain rfl := Except.ok.inj hcreate
      rfl
  have hlen0 : c0.blocks.length = 1 := by
    rw [createChain] at hcreate
    split at hcreate
    · exact absurd hcreate (by simp)
    · obtain rfl := Except.ok.inj hcreate
      rfl
  have hres := buildChain_ok H votes c0 hok0 hch hnd
    (by intro v _; rw [hused0]; exact List.not_mem_nil _)
  refine ⟨verify_of_chainOk H _ hres.1, ?_⟩
  rw [VoteHashChain.length, hres.2.1, hlen0]
  omega

-- ============================================================
-- Concrete fixtures
-- ============================================================

/-- The identity digest: an injective instance of the abstract hash. -/
def hId : String → String := fun s => s

/-- The chain for poll `p1` right after construction. -/
def chainP1 : VoteHashChain := ((createChain hId "p1" "t0").toOption).getD default

/-- Two distinct valid votes. -/
def votesEx : List (String × Int × String) := [("n1", 0, "t1"), ("n2", 1, "t2")]

/-- `chainP1` after recording the vote `("n1", 0)`. -/
def chain2 : VoteHashChain := buildChain hId chainP1 [("n1", 0, "t1")]

/-- Witness for C2 at the concrete two-vote chain. -/
theorem verify_valid_after_distinct_appends_witness :
    VoteHashChain.verify hId (buildChain hId chainP1 votesEx) =
      ⟨true, (buildChain hId chainP1 votesEx).length, -1, none⟩ ∧
    (buildChain hId chainP1 votesEx).length = votesEx.length + 1 :=
  verify_valid_after_distinct_appends hId "p1" "t0" chainP1 votesEx
    (by decide) (by decide) (by decide)

/-- C4. `addVote` with a nullifier already in the chain's internal set
returns the rejection and leaves the whole chain state (blocks, set,
hence `length` and `voteCount`) unchanged. -/
theorem addVote_duplicate_rejected (H : String → String) (c : VoteHashChain)
    (n : String) (ch : Int) (ts : String) (h : n ∈ c.usedNullifiers) :
    addVote H c n ch ts = (.rejected, c) := by
  rw [addVote, if_pos h]

/-- Witness for C4: the spec's concrete replay scenario; after
`append("n1", 0)`, a second `append("n1", 1)` is rejected and
`voteCount` stays 1. -/
theorem addVote_duplicate_rejected_witness :
    addVote hId chain2 "n1" 1 "t2" = (.rejected, chain2) ∧
      chain2.voteCount = 1 :=
  ⟨addVote_duplicate_rejected hId chain2 "n1" 1 "t2" (by decide), by decide⟩

/-- C5 counterexample: the genesis `previousHash` is not a string of 68
zero characters (it has 64). -/
theorem genesis_previous_hash_not_68_zeros :
    (chainP1.blocks.headD default).previousHash ≠
      String.mk (List.replicate 68 '0') := by decide

/-- C5 (amended). The genesis block of every constructed chain has
`choice = -1` and `previousHash` equal to the all-zero sentinel of 64
zero hex characters. -/
theorem genesis_block_sentinel (H : String → String) (pollId ts : String)
    (c : VoteHashChain) (h : createChain H pollId ts = .ok c) :
    (c.blocks.headD default).choiceIndex = -1 ∧
      (c.blocks.headD default).previousHash = String.mk (List.replicate 64 '0') := by
  rw [createChain] at h
  split at h
  · exact absurd h (by simp)
  · obtain rfl := Except.ok.inj h
    refine ⟨rfl, ?_⟩
    show GENESIS_PREVIOUS_HASH = String.mk (List.replicate 64 '0')
    decide

/-- Witness for C5 (amended) at the concrete poll `p1`. -/
theorem genesis_block_sentinel_witness :
    (chainP1.blocks.headD default).choiceIndex = -1 ∧
      (chainP1.blocks.headD default).previousHash = String.mk (List.replicate 64 '0') :=
  genesis_block_sentinel hId "p1" "t0" chainP1 (by decide)

/-- C6 counterexample: on a chain that already contains `n1`, appending
`("n1", -1)` returns the duplicate rejection, not the `InvalidChoice`
validation signal the claim requires. -/
theorem addVote_duplicate_beats_invalid_choice :
    addVote hId chain2 "n1" (-1) "t2" = (.rejected, chain2) ∧
      (addVote hId chain2 "n1" (-1) "t2").1 ≠ .invalidChoice := by decide

/-- C6 (amended). For a negative choice, `addVote` throws the
`InvalidChoice` validation error and leaves the chain unchanged when the
nullifier is fresh; when the nullifier is already present, the duplicate
check fires first and the call instead returns the rejection. -/
theorem addVote_invalid_choice_order (H : String → String)
    (c : VoteHashChain) (n : String) (ch : Int) (ts : String) (hch : ch < 0) :
    (n ∉ c.usedNullifiers → addVote H c n ch ts = (.invalidChoice, c)) ∧
    (n ∈ c.usedNullifiers → addVote H c n ch ts = (.rejected, c)) := by
  constructor
  · intro hn; rw [addVote, if_neg hn, if_pos hch]
  · intro hn; rw [addVote, if_pos hn]

/-- Witness for C6 (amended): a fresh nullifier with a negative choice
is refused as `InvalidChoice` with no mutation. -/
theorem addVote_invalid_choice_order_witness :
    addVote hId chainP1 "n9" (-2) "t5" = (.invalidChoice, chainP1) :=
  (addVote_invalid_choice_order hId chainP1 "n9" (-2) "t5" (by decide)).1 (by decide)

-- ============================================================
-- Tamper detection (C3)
-- ============================================================

theorem string_data_inj {s t : String} (h : s.data = t.data) : s = t := by
  cases s; cases t; exact congrArg String.mk h

/-- A single-field mutation of a committed block. -/
inductive FieldMutation where
  | mIndex (v : Int)
  | mPrev (v : String)
  | mHash (v : String)
  | mTimestamp (v : String)
  | mPollId (v : String)
  | mNullifier (v : String)
  | mChoice (v : Int)
deriving DecidableEq, Repr

/-- Apply the mutation to its target field. -/
def applyMutation : FieldMutation → VoteBlock → VoteBlock
  | .mIndex v, b => { b with index := v }
  | .mPrev v, b => { b with previousHash := v }
  | .mHash v, b => { b with hash := v }
  | .mTimestamp v, b => { b with timestamp := v }
  | .mPollId v, b => { b with pollId := v }
  | .mNullifier v, b => { b with nullifierHash := v }
  | .mChoice v, b => { b with choiceIndex := v }

/-- The mutation writes a value different from the committed one. -/
def MutationChanges : FieldMutation → VoteBlock → Prop
  | .mIndex v, b => v ≠ b.index
  | .mPrev v, b => v ≠ b.previousHash
  | .mHash v, b => v ≠ b.hash
  | .mTimestamp v, b => v ≠ b.timestamp
  | .mPollId v, b => v ≠ b.pollId
  | .mNullifier v, b => v ≠ b.nullifierHash
  | .mChoice v, b => v ≠ b.choiceIndex

instance (m : FieldMutation) (b : VoteBlock) : Decidable (MutationChanges m b) := by
  cases m <;> (simp only [MutationChanges]; infer_instance)

theorem computeBlockHash_ne_prev (H : String → String)
    (hinj : Function.Injective H) (i : Int) (p p' t pl n : String) (c : Int)
    (hne : p ≠ p') : computeBlockHash H i p t pl n c ≠ computeBlockHash H i p' t pl n c := by
  intro h
  apply hne
  have hd := congrArg String.data (hinj h)
  simp only [String.data_append, List.append_assoc] at hd
  have hd := List.append_cancel_left hd
  have hd := List.append_cancel_left hd
  have hd := List.append_cancel_right hd
  exact string_data_inj hd

theorem computeBlockHash_ne_timestamp (H : String → String)
    (hinj : Function.Injective H) (i : Int) (p t t' pl n : String) (c : Int)
    (hne : t ≠ t') : computeBlockHash H i p t pl n c ≠ computeBlockHash H i p t' pl n c := by
  intro h
  apply hne
  have hd := congrArg String.data (hinj h)
  simp only [String.data_append, List.append_assoc] at hd
  have hd := List.append_cancel_left hd
  have hd := List.append_cancel_left hd
  have hd := List.append_cancel_left hd
  have hd := List.append_cancel_left hd
  have hd := List.append_cancel_right hd
  exact string_data_inj hd

theorem computeBlockHash_ne_pollId (H : String → String)
    (hinj : Function.Injective H) (i : Int) (p t pl pl' n : String) (c : Int)
    (hne : pl ≠ pl') : computeBlockHash H i p t pl n c ≠ computeBlockHash H i p t pl' n c := by
  intro h
  apply hne
  have hd := congrArg String.data (hinj h)
  simp only [String.data_append, List.append_assoc] at hd
  have hd := List.append_cancel_left hd
  have hd := List.append_cancel_left hd
  have hd := List.append_cancel_left hd
  have hd := List.append_cancel_left hd
  have hd := List.append_cancel_left hd
  have hd := List.append_cancel_left hd
  have hd := List.append_cancel_right hd
  exact string_data_inj hd

theorem computeBlockHash_ne_nullifier (H : String → String)
    (hinj : Function.Injective H) (i : Int) (p t pl n n' : String) (c : Int)
    (hne : n ≠ n') : computeBlockHash H i p t pl n c ≠ computeBlockHash H i p t pl n' c := by
  intro h
  apply hne
  have hd := congrArg String.data (hinj h)
  simp only [String.data_append, List.append_assoc] at hd
  have hd := List.append_cancel_left hd
  have hd := List.append_cancel_left hd
  have hd := List.append_cancel_left hd
  have hd := List.append_cancel_left hd
  have hd := List.append_cancel_left hd
  have hd := List.append_cancel_left hd
  have hd := List.append_cancel_left hd
  have hd := List.append_cancel_left hd
  have hd := List.append_cancel_right hd
  exact string_data_inj hd

theorem computeBlockHash_ne_choice (H : String → String)
    (hinj : Function.Injective H) (i : Int) (p t pl n : String) (c c' : Int)
    (hne : c ≠ c') : computeBlockHash H i p t pl n c ≠ computeBlockHash H i p t pl n c' := by
  intro h
  apply hne
  have hd := congrArg String.data (hinj h)
  simp only [String.data_append, List.append_assoc] at hd
  have hd := List.append_cancel_left hd
  have hd := List.append_cancel_left hd
  have hd := List.append_cancel_left hd
  have hd := List.append_cancel_left hd
  have hd := List.append_cancel_left hd
  have hd := List.append_cancel_left hd
  have hd := List.append_cancel_left hd
  have hd := List.append_cancel_left hd
  have hd := List.append_cancel_left hd
  have hd := List.append_cancel_left hd
  exact intRepr_injective (string_data_inj hd)

/-- Any changing single-field mutation of a committed block breaks the
index check or the recomputed-digest check at that block. -/
theorem mutated_block_fails_check (H : String → String)
    (hinj : Function.Injective H) (b : VoteBlock) (i : Nat)
    (hidx : b.index = (i : Int))
    (hhash : b.hash = computeBlockHash H b.index b.previousHash b.timestamp
      b.pollId b.nullifierHash b.choiceIndex)
    (m : FieldMutation) (hm : MutationChanges m b) :
    (applyMutation m b).index ≠ (i : Int) ∨
    (applyMutation m b).hash ≠ computeBlockHash H (applyMutation m b).index
      (applyMutation m b).previousHash (applyMutation m b).timestamp
      (applyMutation m b).pollId (applyMutation m b).nullifierHash
      (applyMutation m b).choiceIndex := by
  cases m with
  | mIndex v =>
    left
    simp only [applyMutation]
    rw [← hidx]
    exact hm
  | mPrev v =>
    right
    simp only [applyMutation]
    rw [hhash]
    exact computeBlockHash_ne_prev H hinj b.index b.previousHash v b.timestamp
      b.pollId b.nullifierHash b.choiceIndex (Ne.symm hm)
  | mHash v =>
    right
    simp only [applyMutation]
    rw [← hhash]
    exact hm
  | mTimestamp v =>
    right
    simp only [applyMutation]
    rw [hhash]
    exact computeBlockHash_ne_timestamp H hinj b.index b.previousHash b.timestamp v
      b.pollId b.nullifierHash b.choiceIndex (Ne.symm hm)
  | mPollId v =>
    right
    simp only [applyMutation]
    rw [hhash]
    exact computeBlockHash_ne_pollId H hinj b.index b.previousHash b.timestamp
      b.pollId v b.nullifierHash b.choiceIndex (Ne.symm hm)
  | mNullifier v =>
    right
    simp only [applyMutation]
    rw [hhash]
    exact computeBlockHash_ne_nullifier H hinj b.index b.previousHash b.timestamp
      b.pollId b.nullifierHash v b.choiceIndex (Ne.symm hm)
  | mChoice v =>
    right
    simp only [applyMutation]
    rw [hhash]
    exact computeBlockHash_ne_choice H hinj b.index b.previousHash b.timestamp
      b.pollId b.nullifierHash b.choiceIndex v (Ne.symm hm)

theorem verifyGo_fails_head (H : String → String) (prev : String) (i : Nat)
    (b : VoteBlock) (ys : List VoteBlock)
    (h : b.index ≠ (i : Int) ∨
      b.hash ≠ computeBlockHash H b.index b.previousHash b.timestamp
        b.pollId b.nullifierHash b.choiceIndex) :
    (verifyGo H prev i (b :: ys)).isValid = false ∧
    (verifyGo H prev i (b :: ys)).firstInvalidBlock = (i : Int) := by
  rw [verifyGo]
  split
  · exact ⟨rfl, rfl⟩
  · next h1 =>
    split
    · exact ⟨rfl, rfl⟩
    · next h2 =>
      rcases h with ha | hb
      · exact absurd ha h1
      · exact absurd hb h2

/-- A changing mutation at offset `j` of an all-valid block run makes the
verification loop fail exactly at overall position `i + j`. -/
theorem verifyGo_mutation_fails (H : String → String)
    (hinj : Function.Injective H) :
    ∀ (bs : List VoteBlock) (prev : String) (i j : Nat) (m : FieldMutation)
      (hok : BlocksOkFrom H prev i bs) (hj : j < bs.length)
      (hm : MutationChanges m (bs.get ⟨j, hj⟩)),
      (verifyGo H prev i (bs.set j (applyMutation m (bs.get ⟨j, hj⟩)))).isValid = false ∧
      (verifyGo H prev i (bs.set j (applyMutation m (bs.get ⟨j, hj⟩)))).firstInvalidBlock =
        ((i + j : Nat) : Int) := by
  intro bs
  induction bs with
  | nil =>
    intro _ _ j _ _ hj
    exact absurd hj (by simp)
  | cons b rest ih =>
    intro prev i j m hok hj hm
    obtain ⟨hidx, hhash, hlink, hrest⟩ := hok
    cases j with
    | zero =>
      have hget : (b :: rest).get ⟨0, hj⟩ = b := rfl
      rw [hget] at hm ⊢
      have hset : (b :: rest).set 0 (applyMutation m b) = applyMutation m b :: rest := rfl
      rw [hset]
      simpa using verifyGo_fails_head H prev i (applyMutation m b) rest
        (mutated_block_fails_check H hinj b i hidx hhash m hm)
    | succ j' =>
      have hj' : j' < rest.length := by simpa using hj
      have hget : (b :: rest).get ⟨j' + 1, hj⟩ = rest.get ⟨j', hj'⟩ := rfl
      rw [hget] at hm ⊢
      have hset : (b :: rest).set (j' + 1) (applyMutation m (rest.get ⟨j', hj'⟩)) =
          b :: rest.set j' (applyMutation m (rest.get ⟨j', hj'⟩)) := rfl
      rw [hset, verifyGo]
      rw [if_neg (by simp [hidx]), if_neg (by simp [← hhash])]
      rw [if_neg (by rintro ⟨hi, hne⟩; exact hne (hlink hi))]
      have hres := ih b.hash (i + 1) j' m hrest hj' hm
      refine ⟨hres.1, ?_⟩
      rw [hres.2]
      congr 1
      omega

/-- Verification of a mutated but otherwise well-formed block list fails
exactly at the mutated position. -/
theorem verify_mutation_fails (H : String → String)
    (hinj : Function.Injective H) (bl : List VoteBlock)
    (hne : bl ≠ [])
    (hgen : (bl.headD default).previousHash = GENESIS_PREVIOUS_HASH)
    (hblocks : BlocksOkFrom H "" 0 bl)
    (i : Nat) (m : FieldMutation) (hi : i < bl.length)
    (hm : MutationChanges m (bl.get ⟨i, hi⟩)) (p : String) (u : List String) :
    (VoteHashChain.verify H ⟨p, bl.set i (applyMutation m (bl.get ⟨i, hi⟩)), u⟩).isValid = false ∧
    (VoteHashChain.verify H ⟨p, bl.set i (applyMutation m (bl.get ⟨i, hi⟩)), u⟩).firstInvalidBlock = (i : Int) := by
  cases bl with
  | nil => exact absurd rfl hne
  | cons g gs =>
    have hM := verifyGo_mutation_fails H hinj (g :: gs) "" 0 i m hblocks hi hm
    cases i with
    | zero =>
      show (VoteHashChain.verify H ⟨p, applyMutation m g :: gs, u⟩).isValid = false ∧
        (VoteHashChain.verify H ⟨p, applyMutation m g :: gs, u⟩).firstInvalidBlock = ((0 : Nat) : Int)
      by_cases hpre : (applyMutation m g).previousHash = GENESIS_PREVIOUS_HASH
      · simp only [VoteHashChain.verify]
        rw [if_neg (fun hc => hc hpre)]
        simpa using hM
      · simp only [VoteHashChain.verify]
        rw [if_pos hpre]
        exact ⟨rfl, by simp⟩
    | succ j =>
      have hg : g.previousHash = GENESIS_PREVIOUS_HASH := hgen
      show (VoteHashChain.verify H
          ⟨p, g :: gs.set j (applyMutation m (gs.get ⟨j, by simpa using hi⟩)), u⟩).isValid = false ∧
        (VoteHashChain.verify H
          ⟨p, g :: gs.set j (applyMutation m (gs.get ⟨j, by simpa using hi⟩)), u⟩).firstInvalidBlock = ((j + 1 : Nat) : Int)
      simp only [VoteHashChain.verify]
      rw [if_neg (fun hc => hc hg)]
      simpa using hM

/-- C3. After building a chain by valid appends, changing any single
field of any committed block to a different value makes `fromBlocks`
reject the exported list (`none`), and a direct `verify` on the mutated
chain reports `isValid = false` with `firstInvalidBlock` equal to the
mutated block's position, the first failing check. Assumes the digest
function is injective (ideal hash; SHA-256 collisions are out of scope). -/
theorem tamper_always_detected (H : String → String)
    (hinj : Function.Injective H) (pollId ts0 : String) (c0 : VoteHashChain)
    (votes : List (String × Int × String))
    (hcreate : createChain H pollId ts0 = .ok c0)
    (hch : ∀ v ∈ votes, 0 ≤ v.2.1)
    (hnd : (votes.map Prod.fst).Nodup)
    (i : Nat) (m : FieldMutation)
    (hi : i < (buildChain H c0 votes).blocks.length)
    (hm : MutationChanges m ((buildChain H c0 votes).blocks.get ⟨i, hi⟩))
    (importPollId : String) :
    VoteHashChain.fromBlocks H importPollId
      ((buildChain H c0 votes).blocks.set i
        (applyMutation m ((buildChain H c0 votes).blocks.get ⟨i, hi⟩))) = none ∧
    (VoteHashChain.verify H
      { buildChain H c0 votes with
        blocks := (buildChain H c0 votes).blocks.set i
          (applyMutation m ((buildChain H c0 votes).blocks.get ⟨i, hi⟩)) }).isValid = false ∧
    (VoteHashChain.verify H
      { buildChain H c0 votes with
        blocks := (buildChain H c0 votes).blocks.set i
          (applyMutation m ((buildChain H c0 votes).blocks.get ⟨i, hi⟩)) }).firstInvalidBlock = (i : Int) := by
  have hok0 := chainOk_createChain H pollId ts0 c0 hcreate
  have hused0 : c0.usedNullifiers = [] := by
    rw [createChain] at hcreate
    split at hcreate
    · exact absurd hcreate (by simp)
    · obtain rfl := Except.ok.inj hcreate
      rfl
  obtain ⟨hokc, _, _⟩ := buildChain_ok H votes c0 hok0 hch hnd
    (by intro v _; rw [hused0]; exact List.not_mem_nil _)
  obtain ⟨hne, hgen, hblocks, _⟩ := hokc
  have hv := verify_mutation_fails H hinj (buildChain H c0 votes).blocks hne hgen hblocks
    i m hi hm
  have hvchain := hv (buildChain H c0 votes).pollId (buildChain H c0 votes).usedNullifiers
  refine ⟨?_, hvchain.1, hvchain.2⟩
  rw [VoteHashChain.fromBlocks]
  rw [if_neg (by
    intro hempty
    have hlen := List.isEmpty_iff.mp hempty
    have : (buildChain H c0 votes).blocks.length = 0 := by
      have := congrArg List.length hlen
      simpa using this
    exact hne (List.eq_nil_of_length_eq_zero this))]
  rw [if_neg (by
    have hfalse := (hv importPollId
      (List.map VoteBlock.nullifierHash
        (List.filter (fun (b : VoteBlock) => decide (0 < b.index))
          ((buildChain H c0 votes).blocks.set i
            (applyMutation m ((buildChain H c0 votes).blocks.get ⟨i, hi⟩)))))).1
    simpa using hfalse)]

/-- Witness for C3: mutating the nullifier of block 1 of the concrete
two-vote chain is detected by both `fromBlocks` and `verify`. -/
theorem tamper_always_detected_witness :
    VoteHashChain.fromBlocks hId "p1"
      ((buildChain hId chainP1 votesEx).blocks.set 1
        (applyMutation (.mNullifier "nX")
          ((buildChain hId chainP1 votesEx).blocks.get ⟨1, by decide⟩))) = none ∧
    (VoteHashChain.verify hId
      { buildChain hId chainP1 votesEx with
        blocks := (buildChain hId chainP1 votesEx).blocks.set 1
          (applyMutation (.mNullifier "nX")
            ((buildChain hId chainP1 votesEx).blocks.get ⟨1, by decide⟩)) }).isValid = false ∧
    (VoteHashChain.verify hId
      { buildChain hId chainP1 votesEx with
        blocks := (buildChain hId chainP1 votesEx).blocks.set 1
          (applyMutation (.mNullifier "nX")
            ((buildChain hId chainP1 votesEx).blocks.get ⟨1, by decide⟩)) }).firstInvalidBlock = ((1 : Nat) : Int) :=
  tamper_always_detected hId (fun _ _ h => h) "p1" "t0" chainP1 votesEx
    (by decide) (by decide) (by decide) 1 (.mNullifier "nX") (by decide) (by decide) "p1"

-- ============================================================
-- Merkle tree (merkle-tree.ts)
-- ============================================================

/-- Internal-node digest: hash of the concatenation, left then right,
no sorting (`hashPair` in the source). -/
def hashPair (H : String → String) (left right : String) : String :=
  H (left ++ right)

/-- The deterministic padding digest `EMPTY_LEAF = sha256("VOXPOP_EMPTY_LEAF")`. -/
def emptyLeaf (H : String → String) : String := H "VOXPOP_EMPTY_LEAF"

/-- A Merkle inclusion proof. -/
structure MerkleProof where
  leaf : String
  pathElements : List String
  pathIndices : List Nat
  root : String
deriving DecidableEq, Repr

/-- The tree state: the ordered leaf digests. -/
structure MerkleTree where
  leaves : List String
deriving DecidableEq, Repr, Inhabited

/-- `insert`: push a leaf, return its index and the new tree. -/
def MerkleTree.insert (t : MerkleTree) (leaf : String) : Nat × MerkleTree :=
  (t.leaves.length, ⟨t.leaves ++ [leaf]⟩)

/-- `insertBatch`: push several leaves, return their indices. -/
def MerkleTree.insertBatch (t : MerkleTree) (newLeaves : List String) :
    List Nat × MerkleTree :=
  ((List.range newLeaves.length).map (fun i => t.leaves.length + i),
    ⟨t.leaves ++ newLeaves⟩)

/-- One bottom-up round: hash adjacent pairs; an odd tail is paired with
the empty-leaf digest (unreachable after power-of-two padding, kept as
in the source). -/
def pairUp (H : String → String) : List String → List String
  | [] => []
  | [x] => [hashPair H x (emptyLeaf H)]
  | x :: y :: rest => hashPair H x y :: pairUp H rest

theorem pairUp_length (H : String → String) :
    ∀ l : List String, (pairUp H l).length = (l.length + 1) / 2 := by
  intro l
  match l with
  | [] => simp [pairUp]
  | [x] => simp [pairUp]
  | x :: y :: rest =>
    simp only [pairUp, List.length_cons]
    rw [pairUp_length H rest]
    omega

/-- Fuelled layer builder; fuel at least the layer length suffices. -/
def buildLayersAux (H : String → String) : Nat → List String → List (List String)
  | 0, layer => [layer]
  | fuel + 1, layer =>
    if layer.length ≤ 1 then [layer]
    else layer :: buildLayersAux H fuel (pairUp H layer)

/-- All layers from a starting layer up to the single-element top. -/
def buildLayers (H : String → String) (layer : List String) : List (List String) :=
  buildLayersAux H layer.length layer

theorem buildLayersAux_congr (H : String → String) :
    ∀ (n : Nat) (layer : List String), layer.length = n →
      ∀ f f', n ≤ f → n ≤ f' →
        buildLayersAux H f layer = buildLayersAux H f' layer := by
  intro n
  induction n using Nat.strong_induction_on with
  | _ n ih =>
    intro layer hlen f f' hf hf'
    match f, f' with
    | 0, 0 => rfl
    | 0, fb + 1 =>
      have h0 : layer.length ≤ 1 := by omega
      simp only [buildLayersAux]
      rw [if_pos h0]
    | fa + 1, 0 =>
      have h0 : layer.length ≤ 1 := by omega
      simp only [buildLayersAux]
      rw [if_pos h0]
    | fa + 1, fb + 1 =>
      simp only [buildLayersAux]
      by_cases h1 : layer.length ≤ 1
      · rw [if_pos h1, if_pos h1]
      · rw [if_neg h1, if_neg h1]
        have hpl : (pairUp H layer).length = (n + 1) / 2 := by
          rw [pairUp_length, hlen]
        rw [ih ((n + 1) / 2) (by omega) (pairUp H layer) hpl fa fb (by omega) (by omega)]

/-- The intended recurrence of `buildLayers`. -/
theorem buildLayers_eq (H : String → String) (layer : List String) :
    buildLayers H layer = if layer.length ≤ 1 then [layer]
      else layer :: buildLayers H (pairUp H layer) := by
  show buildLayersAux H layer.length layer = _
  match hl : layer.length with
  | 0 => simp [buildLayersAux]
  | k + 1 =>
    simp only [buildLayersAux]
    by_cases h1 : layer.length ≤ 1
    · have hk : k + 1 ≤ 1 := by omega
      rw [if_pos (hl ▸ h1), if_pos hk]
    · have hk : ¬ (k + 1 ≤ 1) := by omega
      rw [if_neg h1, if_neg hk]
      rw [buildLayersAux_congr H (pairUp H layer).length (pairUp H layer) rfl k
        (pairUp H layer).length (by rw [pairUp_length, hl]; omega) (le_refl _)]
      rfl

/-- Fuelled ceiling base-2 logarithm (kernel-computable `Nat.clog 2`). -/
def ceilLog2Aux : Nat → Nat → Nat
  | 0, _ => 0
  | fuel + 1, n => if n ≤ 1 then 0 else ceilLog2Aux fuel ((n + 1) / 2) + 1

/-- `Math.ceil(Math.log2 n)` of the source, for `n ≥ 1`. -/
def ceilLog2 (n : Nat) : Nat := ceilLog2Aux n n

theorem ceilLog2Aux_eq_clog :
    ∀ (n f : Nat), n ≤ f → ceilLog2Aux f n = Nat.clog 2 n := by
  intro n
  induction n using Nat.strong_induction_on with
  | _ n ih =>
    intro f hf
    match f with
    | 0 =>
      have h0 : n = 0 := by omega
      subst h0
      rw [Nat.clog_of_right_le_one (by omega)]
      rfl
    | g + 1 =>
      show (if n ≤ 1 then 0 else ceilLog2Aux g ((n + 1) / 2) + 1) = _
      by_cases h1 : n ≤ 1
      · rw [if_pos h1, Nat.clog_of_right_le_one h1]
      · rw [if_neg h1]
        rw [ih ((n + 1) / 2) (by omega) g (by omega)]
        conv_rhs => rw [Nat.clog_of_two_le (by omega : 1 < 2) (by omega : 2 ≤ n)]
        have h2 : n + 2 - 1 = n + 1 := by omega
        rw [h2]

theorem ceilLog2_eq_clog (n : Nat) : ceilLog2 n = Nat.clog 2 n :=
  ceilLog2Aux_eq_clog n n (le_refl n)

/-- The padded leaf layer: right-pad with the empty-leaf digest up to
`2 ^ ceil(log2(max(leafCount, 2)))`. -/
def padLeaves (H : String → String) (leaves : List String) : List String :=
  leaves ++ List.replicate (2 ^ ceilLog2 (max leaves.length 2) - leaves.length)
    (emptyLeaf H)

/-- `computeLayers`: the empty tree yields the single sentinel layer,
otherwise all layers over the padded leaves. -/
def computeLayers (H : String → String) (t : MerkleTree) : List (List String) :=
  if t.leaves = [] then [[emptyLeaf H]]
  else buildLayers H (padLeaves H t.leaves)

/-- `root`: sentinel for the empty tree, else the single digest of the
top layer. -/
def MerkleTree.root (H : String → String) (t : MerkleTree) : String :=
  if t.leaves = [] then emptyLeaf H
  else ((computeLayers H t).getLastD []).headD ""

/-- `leafCount` accessor. -/
def MerkleTree.leafCount (t : MerkleTree) : Nat := t.leaves.length

/-- The per-level loop of `getProof`: record the sibling digest (padding
with the empty-leaf digest when out of range) and the left/right bit,
then move to the parent index; the top layer is not iterated. -/
def proofSteps (H : String → String) : List (List String) → Nat → List (String × Nat)
  | [], _ => []
  | [_], _ => []
  | layer :: next :: rest, idx =>
    let sibIdx := if idx % 2 = 1 then idx - 1 else idx + 1
    let sib := if h : sibIdx < layer.length then layer.get ⟨sibIdx, h⟩ else emptyLeaf H
    let dir : Nat := if idx % 2 = 1 then 1 else 0
    (sib, dir) :: proofSteps H (next :: rest) (idx / 2)

/-- `getProof`: `none` for an out-of-range index (the source throws). -/
def MerkleTree.getProof (H : String → String) (t : MerkleTree) (index : Nat) :
    Option MerkleProof :=
  if h : index < t.leaves.length then
    let layers := computeLayers H t
    let steps := proofSteps H layers index
    some ⟨t.leaves.get ⟨index, h⟩, steps.map Prod.fst, steps.map Prod.snd,
      MerkleTree.root H t⟩
  else none

/-- The replay fold of `MerkleTree.verify`: combine with each sibling,
current on the left when the direction bit is 0. -/
def foldPath (H : String → String) (steps : List (String × Nat)) (start : String) :
    String :=
  steps.foldl
    (fun current sd => if sd.2 = 0 then hashPair H current sd.1 else hashPair H sd.1 current)
    start

/-- `static verify(proof)`: recompute the root from the leaf and compare. -/
def MerkleTree.verify (H : String → String) (p : MerkleProof) : Bool :=
  foldPath H (p.pathElements.zip p.pathIndices) p.leaf == p.root

theorem getLastD_irrel {α : Type} (l : List α) (d d' : α) (h : l ≠ []) :
    l.getLastD d = l.getLastD d' := by
  rw [List.getLastD_eq_getLast?, List.getLastD_eq_getLast?]
  obtain ⟨v, hv⟩ := Option.isSome_iff_exists.mp (List.getLast?_isSome.mpr h)
  rw [hv]
  rfl

theorem buildLayers_ne_nil (H : String → String) (l : List String) :
    buildLayers H l ≠ [] := by
  rw [buildLayers_eq]
  split <;> simp

theorem get_eq_of_index_eq {α : Type} (l : List α) (i j : Nat)
    (hi : i < l.length) (hj : j < l.length) (h : i = j) :
    l.get ⟨i, hi⟩ = l.get ⟨j, hj⟩ := by
  subst h
  rfl

/-- Parent digest at index `j` of a paired layer. -/
theorem pairUp_get? (H : String → String) :
    ∀ (l : List String) (j : Nat) (a b : String),
      l.get? (2 * j) = some a → l.get? (2 * j + 1) = some b →
      (pairUp H l).get? j = some (hashPair H a b) := by
  intro l
  match l with
  | [] =>
    intro j a b h1 _
    simp at h1
  | [x] =>
    intro j a b h1 h2
    cases j with
    | zero => simp at h2
    | succ j' =>
      rw [show 2 * (j' + 1) = 2 * j' + 1 + 1 by omega] at h1
      simp at h1
  | x :: y :: rest =>
    intro j a b h1 h2
    cases j with
    | zero =>
      simp only [Nat.mul_zero, List.get?] at h1 h2
      obtain rfl := Option.some.inj h1
      obtain rfl := Option.some.inj h2
      rfl
    | succ j' =>
      have h1' : rest.get? (2 * j') = some a := by
        rw [show 2 * (j' + 1) = 2 * j' + 1 + 1 by omega] at h1
        simpa using h1
      have h2' : rest.get? (2 * j' + 1) = some b := by
        rw [show 2 * (j' + 1) + 1 = (2 * j' + 1) + 1 + 1 by omega] at h2
        simpa using h2
      show (pairUp H rest).get? j' = some (hashPair H a b)
      exact pairUp_get? H rest j' a b h1' h2'

/-- Replaying the proof steps from the leaf reproduces the top digest,
for any starting layer of power-of-two size. -/
theorem foldPath_proofSteps (H : String → String) :
    ∀ (k : Nat) (l : List String), l.length = 2 ^ k →
      ∀ (idx : Nat) (hidx : idx < l.length),
        foldPath H (proofSteps H (buildLayers H l) idx) (l.get ⟨idx, hidx⟩) =
          ((buildLayers H l).getLastD []).headD "" := by
  intro k
  induction k with
  | zero =>
    intro l hl idx hidx
    match l, hl with
    | [x], _ =>
      have hidx0 : idx = 0 := by
        simp only [List.length_singleton] at hidx
        omega
      subst hidx0
      rw [buildLayers_eq]
      rw [if_pos (by simp)]
      rfl
  | succ k ih =>
    intro l hl idx hidx
    have hlen2 : ¬ l.length ≤ 1 := by
      rw [hl]
      have : 2 ^ (k + 1) = 2 * 2 ^ k := by ring
      have hpos : 1 ≤ 2 ^ k := Nat.one_le_two_pow
      omega
    have hpow : 2 ^ (k + 1) = 2 * 2 ^ k := by ring
    have hplen : (pairUp H l).length = 2 ^ k := by
      rw [pairUp_length, hl, hpow]
      omega
    obtain ⟨L2, bl2, hbl2⟩ : ∃ L2 bl2, buildLayers H (pairUp H l) = L2 :: bl2 := by
      cases hb : buildLayers H (pairUp H l) with
      | nil => exact absurd hb (buildLayers_ne_nil H _)
      | cons a t => exact ⟨a, t, rfl⟩
    rw [buildLayers_eq, if_neg hlen2, hbl2]
    show foldPath H
      ((if h : (if idx % 2 = 1 then idx - 1 else idx + 1) < l.length then
          l.get ⟨if idx % 2 = 1 then idx - 1 else idx + 1, h⟩ else emptyLeaf H,
        if idx % 2 = 1 then 1 else 0) :: proofSteps H (L2 :: bl2) (idx / 2))
      (l.get ⟨idx, hidx⟩) = _
    have hstep : ∀ s d rest start, foldPath H ((s, d) :: rest) start =
        foldPath H rest (if d = 0 then hashPair H start s else hashPair H s start) := by
      intro s d rest start
      rfl
    rw [hstep]
    have hparity := Nat.mod_two_eq_zero_or_one idx
    have hcomb : (if (if idx % 2 = 1 then (1 : Nat) else 0) = 0 then
        hashPair H (l.get ⟨idx, hidx⟩)
          (if h : (if idx % 2 = 1 then idx - 1 else idx + 1) < l.length then
            l.get ⟨if idx % 2 = 1 then idx - 1 else idx + 1, h⟩ else emptyLeaf H)
        else hashPair H
          (if h : (if idx % 2 = 1 then idx - 1 else idx + 1) < l.length then
            l.get ⟨if idx % 2 = 1 then idx - 1 else idx + 1, h⟩ else emptyLeaf H)
          (l.get ⟨idx, hidx⟩)) =
        (pairUp H l).get ⟨idx / 2, by rw [hplen]; rw [hl, hpow] at hidx; omega⟩ := by
      rcases hparity with heven | hodd
      · have hnot1 : ¬ idx % 2 = 1 := by omega
        have hsib : idx + 1 < l.length := by
          rw [hl, hpow]
          rw [hl, hpow] at hidx
          omega
        rw [if_neg hnot1, if_neg hnot1, dif_pos hsib, if_pos rfl]
        have hq := pairUp_get? H l (idx / 2) (l.get ⟨idx, hidx⟩) (l.get ⟨idx + 1, hsib⟩)
          (by rw [List.get?_eq_get (by omega : 2 * (idx / 2) < l.length)]
              exact congrArg some (get_eq_of_index_eq l _ _ _ _ (by omega)))
          (by rw [List.get?_eq_get (by omega : 2 * (idx / 2) + 1 < l.length)]
              exact congrArg some (get_eq_of_index_eq l _ _ _ _ (by omega)))
        have hlt : idx / 2 < (pairUp H l).length := by
          rw [hplen]
          rw [hl, hpow] at hidx
          omega
        rw [List.get?_eq_get hlt] at hq
        exact (Option.some.inj hq).symm
      · have h1 : idx % 2 = 1 := hodd
        have hsib : idx - 1 < l.length := by omega
        rw [if_pos h1, if_pos h1, dif_pos hsib, if_neg (by omega)]
        have hq := pairUp_get? H l (idx / 2) (l.get ⟨idx - 1, hsib⟩) (l.get ⟨idx, hidx⟩)
          (by rw [List.get?_eq_get (by omega : 2 * (idx / 2) < l.length)]
              exact congrArg some (get_eq_of_index_eq l _ _ _ _ (by omega)))
          (by rw [List.get?_eq_get (by omega : 2 * (idx / 2) + 1 < l.length)]
              exact congrArg some (get_eq_of_index_eq l _ _ _ _ (by omega)))
        have hlt : idx / 2 < (pairUp H l).length := by
          rw [hplen]
          rw [hl, hpow] at hidx
          omega
        rw [List.get?_eq_get hlt] at hq
        exact (Option.some.inj hq).symm
    rw [hcomb]
    have hrec := ih (pairUp H l) hplen (idx / 2)
      (by rw [hplen]; rw [hl, hpow] at hidx; omega)
    rw [hbl2] at hrec
    rw [hrec]
    rw [List.getLastD_cons]
    rw [List.getLastD_cons, List.getLastD_cons]

theorem padLeaves_length (H : String → String) (leaves : List String) :
    (padLeaves H leaves).length = 2 ^ ceilLog2 (max leaves.length 2) := by
  have hle : max leaves.length 2 ≤ 2 ^ Nat.clog 2 (max leaves.length 2) :=
    Nat.le_pow_clog (by omega) _
  have hl2 : leaves.length ≤ max leaves.length 2 := le_max_left _ _
  rw [padLeaves]
  simp only [List.length_append, List.length_replicate]
  rw [ceilLog2_eq_clog]
  omega

/-- C7. For every in-range index, `getProof` succeeds, the proof passes
`MerkleTree.verify` against the tree's root at generation time, and the
proof's `root` field equals that snapshot root. In this pure state-passing
embedding a proof value cannot be affected by later insertions, so the
snapshot property is exactly the last equality: the embedded root is the
root of the tree the proof was generated from. -/
theorem getProof_verifies (H : String → String) (t : MerkleTree) (index : Nat)
    (h : index < t.leafCount) :
    ∃ p, MerkleTree.getProof H t index = some p ∧
      MerkleTree.verify H p = true ∧ p.root = MerkleTree.root H t := by
  have hlt : index < t.leaves.length := h
  have hne : t.leaves ≠ [] := by
    intro hl
    rw [hl] at hlt
    simp at hlt
  have hx : index < (padLeaves H t.leaves).length := by
    rw [padLeaves]
    simp only [List.length_append]
    omega
  refine ⟨⟨t.leaves.get ⟨index, hlt⟩,
    (proofSteps H (computeLayers H t) index).map Prod.fst,
    (proofSteps H (computeLayers H t) index).map Prod.snd,
    MerkleTree.root H t⟩, ?_, ?_, rfl⟩
  · rw [MerkleTree.getProof, dif_pos hlt]
  · rw [MerkleTree.verify]
    simp only
    have hzip : ((proofSteps H (computeLayers H t) index).map Prod.fst).zip
        ((proofSteps H (computeLayers H t) index).map Prod.snd) =
        proofSteps H (computeLayers H t) index := by
      rw [List.zip_map']
      simp
    rw [hzip]
    have hcl : computeLayers H t = buildLayers H (padLeaves H t.leaves) := by
      rw [computeLayers, if_neg hne]
    have hroot : MerkleTree.root H t = ((computeLayers H t).getLastD []).headD "" := by
      rw [MerkleTree.root, if_neg hne]
    have hstart : (padLeaves H t.leaves).get ⟨index, hx⟩ = t.leaves.get ⟨index, hlt⟩ := by
      have h1 : (padLeaves H t.leaves).get? index = t.leaves.get? index := by
        rw [padLeaves]
        exact List.get?_append hlt
      rw [List.get?_eq_get hx, List.get?_eq_get hlt] at h1
      exact Option.some.inj h1
    have hmain := foldPath_proofSteps H (ceilLog2 (max t.leaves.length 2))
      (padLeaves H t.leaves) (padLeaves_length H t.leaves) index hx
    rw [hstart] at hmain
    rw [hcl, hroot, hcl, hmain]
    exact beq_self_eq_true _

/-- The three-leaf tree of the spec's concrete scenario. -/
def mt3 : MerkleTree := ⟨["a", "b", "c"]⟩

/-- Witness for C7 on the three-leaf tree at index 2. -/
theorem getProof_verifies_witness :
    ∃ p, MerkleTree.getProof hId mt3 2 = some p ∧
      MerkleTree.verify hId p = true ∧ p.root = MerkleTree.root hId mt3 :=
  getProof_verifies hId mt3 2 (by decide)

-- ============================================================
-- Root refinement (C8)
-- ============================================================

/-- Collapse the layer stack to its top layer. -/
def reduceAll (H : String → String) (l : List String) : List String :=
  if l.length ≤ 1 then l else reduceAll H (pairUp H l)
  termination_by l.length
  decreasing_by rw [pairUp_length]; omega

theorem buildLayers_getLastD (H : String → String) :
    ∀ (n : Nat) (l : List String), l.length = n →
      (buildLayers H l).getLastD [] = reduceAll H l := by
  intro n
  induction n using Nat.strong_induction_on with
  | _ n ih =>
    intro l hl
    rw [buildLayers_eq, reduceAll]
    by_cases h1 : l.length ≤ 1
    · rw [if_pos h1, if_pos h1]
      rfl
    · rw [if_neg h1, if_neg h1]
      rw [List.getLastD_cons]
      rw [getLastD_irrel _ l [] (buildLayers_ne_nil H _)]
      exact ih (pairUp H l).length (by rw [pairUp_length, hl]; omega) _ rfl

/-- Modelled from the spec (§4.2 `root`): one bottom-up round of
"repeatedly hash adjacent pairs, left-to-right, no sorting". -/
def specRound (H : String → String) : List String → List String
  | x :: y :: rest => hashPair H x y :: specRound H rest
  | l => l

theorem specRound_length (H : String → String) :
    ∀ l : List String, (specRound H l).length = (l.length + 1) / 2 := by
  intro l
  match l with
  | [] => simp [specRound]
  | [x] => simp [specRound]
  | x :: y :: rest =>
    simp only [specRound, List.length_cons]
    rw [specRound_length H rest]
    omega

/-- Modelled from the spec: repeat the pairing round "until one digest
remains". -/
def specReduce (H : String → String) (l : List String) : List String :=
  if l.length ≤ 1 then l else specReduce H (specRound H l)
  termination_by l.length
  decreasing_by rw [specRound_length]; omega

/-- Modelled from the spec (§4.2 `root`): the sentinel empty-leaf digest
for zero leaves; otherwise pad the leaves on the right with the sentinel
up to the next power of two at least `max(leafCount, 2)` and hash
adjacent pairs bottom-up until one digest remains. -/
def rootSpec (H : String → String) (t : MerkleTree) : String :=
  if t.leaves.length = 0 then emptyLeaf H
  else (specReduce H (t.leaves ++
    List.replicate (2 ^ Nat.clog 2 (max t.leaves.length 2) - t.leaves.length)
      (emptyLeaf H))).headD ""

theorem pairUp_eq_specRound (H : String → String) :
    ∀ l : List String, 2 ∣ l.length → pairUp H l = specRound H l := by
  intro l
  match l with
  | [] => intro _; rfl
  | [x] => intro hdvd; simp at hdvd
  | x :: y :: rest =>
    intro hdvd
    show hashPair H x y :: pairUp H rest = hashPair H x y :: specRound H rest
    rw [pairUp_eq_specRound H rest (by
      simp only [List.length_cons] at hdvd
      omega)]

theorem reduceAll_eq_specReduce (H : String → String) :
    ∀ (k : Nat) (l : List String), l.length = 2 ^ k →
      reduceAll H l = specReduce H l := by
  intro k
  induction k with
  | zero =>
    intro l hl
    rw [reduceAll, specReduce, if_pos (by omega), if_pos (by omega)]
  | succ k ih =>
    intro l hl
    have h2 : ¬ l.length ≤ 1 := by
      rw [hl]
      have hpos : 1 ≤ 2 ^ k := Nat.one_le_two_pow
      have : 2 ^ (k + 1) = 2 * 2 ^ k := by ring
      omega
    rw [reduceAll, specReduce, if_neg h2, if_neg h2]
    have hdvd : 2 ∣ l.length := by
      rw [hl]
      exact Dvd.intro (2 ^ k) (by ring)
    rw [pairUp_eq_specRound H l hdvd]
    exact ih (specRound H l) (by
      rw [specRound_length, hl]
      have : 2 ^ (k + 1) = 2 * 2 ^ k := by ring
      omega)

/-- C8. The `root` accessor equals the spec's description: the sentinel
empty-leaf digest for zero leaves, otherwise the bottom-up pairwise hash
of the leaf list right-padded with the sentinel to the next power of two
at least `max(leafCount, 2)`, left-to-right, no sorting. -/
theorem root_eq_rootSpec (H : String → String) (t : MerkleTree) :
    MerkleTree.root H t = rootSpec H t := by
  by_cases hne : t.leaves = []
  · rw [MerkleTree.root, rootSpec, if_pos hne, if_pos (by rw [hne]; rfl)]
  · have hlen : ¬ t.leaves.length = 0 := by
      intro h0
      exact hne (List.eq_nil_of_length_eq_zero h0)
    rw [MerkleTree.root, rootSpec, if_neg hne, if_neg hlen]
    rw [computeLayers, if_neg hne]
    rw [buildLayers_getLastD H (padLeaves H t.leaves).length _ rfl]
    rw [reduceAll_eq_specReduce H (ceilLog2 (max t.leaves.length 2))
      (padLeaves H t.leaves) (padLeaves_length H t.leaves)]
    rw [padLeaves, ceilLog2_eq_clog]

-- ============================================================
-- Nullifier store (nullifier.ts) and vote module (vote-module.ts)
-- ============================================================

/-- Record of a consumed nullifier; `recordedAt` is the oracle clock. -/
structure NullifierRecord where
  nullifierHash : String
  pollId : String
  recordedAt : Nat
deriving DecidableEq, Repr

/-- Insertion-ordered association list standing for a JS `Map`. -/
def alookup {α : Type} (k : String) : List (String × α) → Option α
  | [] => none
  | (k', v) :: rest => if k' = k then some v else alookup k rest

/-- `Map.set`: replace in place or append at the end. -/
def aset {α : Type} (k : String) (v : α) : List (String × α) → List (String × α)
  | [] => [(k, v)]
  | (k', v') :: rest => if k' = k then (k, v) :: rest else (k', v') :: aset k v rest

theorem alookup_aset {α : Type} (k k' : String) (v : α) :
    ∀ l : List (String × α),
      alookup k' (aset k v l) = if k = k' then some v else alookup k' l := by
  intro l
  induction l with
  | nil =>
    by_cases h : k = k'
    · rw [if_pos h]
      show (if k = k' then some v else none) = some v
      rw [if_pos h]
    · rw [if_neg h]
      show (if k = k' then some v else none) = none
      rw [if_neg h]
  | cons kv rest ih =>
    obtain ⟨k0, v0⟩ := kv
    show alookup k' (if k0 = k then (k, v) :: rest else (k0, v0) :: aset k v rest) = _
    by_cases h0 : k0 = k
    · rw [if_pos h0]
      show (if k = k' then some v else alookup k' rest) = _
      by_cases h : k = k'
      · rw [if_pos h, if_pos h]
      · rw [if_neg h, if_neg h]
        show alookup k' rest = alookup k' ((k0, v0) :: rest)
        show alookup k' rest = (if k0 = k' then some v0 else alookup k' rest)
        rw [if_neg (by rw [h0]; exact h)]
    · rw [if_neg h0]
      show (if k0 = k' then some v0 else alookup k' (aset k v rest)) = _
      by_cases h1 : k0 = k'
      · rw [if_pos h1]
        have hne : ¬ k = k' := by
          intro hk
          exact h0 (hk ▸ h1.symm ▸ rfl)
        rw [if_neg hne]
        show some v0 = alookup k' ((k0, v0) :: rest)
        show some v0 = (if k0 = k' then some v0 else alookup k' rest)
        rw [if_pos h1]
      · rw [if_neg h1, ih]
        by_cases h : k = k'
        · rw [if_pos h, if_pos h]
        · rw [if_neg h, if_neg h]
          show alookup k' rest = (if k0 = k' then some v0 else alookup k' rest)
          rw [if_neg h1]

/-- `NullifierStore.check`: look up without mutating; `some` is the
existing record (not fresh), `none` means fresh. -/
def storeCheck (consumed : List (String × List NullifierRecord))
    (pollId nullifierHash : String) : Option NullifierRecord :=
  match alookup pollId consumed with
  | none => none
  | some records => records.find? (fun r => r.nullifierHash == nullifierHash)

/-- `NullifierStore.consume`: record the nullifier unless it is already
present for this poll; returns the prior record when not fresh. -/
def storeConsume (consumed : List (String × List NullifierRecord))
    (pollId nullifierHash : String) (now : Nat) :
    Option NullifierRecord × List (String × List NullifierRecord) :=
  match storeCheck consumed pollId nullifierHash with
  | some r => (some r, consumed)
  | none =>
    (none, aset pollId ((alookup pollId consumed).getD [] ++
      [⟨nullifierHash, pollId, now⟩]) consumed)

/-- Poll lifecycle status. -/
inductive PollStatus where
  | upcoming
  | active
  | closed
deriving DecidableEq, Repr, Inhabited

/-- A poll managed by the vote module; times are oracle milliseconds. -/
structure ManagedPoll where
  id : String
  title : String
  description : String
  options : List String
  countryCode : String
  status : PollStatus
  createdAt : Nat
  closesAt : Nat
  requireZkp : Bool
deriving DecidableEq, Repr, Inhabited

/-- Poll-creation parameters. -/
structure CreatePollParams where
  title : String
  description : String
  options : List String
  countryCode : String
  durationMinutes : Int
  requireZkp : Bool
deriving DecidableEq, Repr

/-- Structural stand-in for the optional ZKP proof object: whether the
`proof` field is truthy, and the proof's own nullifier string (empty =
falsy). -/
structure VoteProof where
  hasProof : Bool
  nullifierHash : String
deriving DecidableEq, Repr

/-- Receipt returned on a successful cast. -/
structure VoteReceipt where
  accepted : Bool
  voteHash : String
  chainPosition : Int
  previousHash : String
  timestamp : String
  nullifierHash : String
deriving DecidableEq, Repr

/-- Errors thrown by the module (`VoteModuleError` codes), plus `thrown`
for a plain propagated `Error`. -/
inductive VoteError where
  | invalidTitle
  | invalidOptions
  | invalidDuration
  | pollNotFound
  | pollClosed
  | invalidChoice
  | alreadyVoted
  | invalidProof
  | internalError
  | thrown (msg : String)
deriving DecidableEq, Repr

/-- The mutable state of a `VoteModule`: polls, per-poll chains, and the
nullifier store (group manager and country registry carry no claim-relevant
state and are omitted). -/
structure VoteModuleState where
  polls : List (String × ManagedPoll)
  chains : List (String × VoteHashChain)
  consumed : List (String × List NullifierRecord)
deriving DecidableEq, Repr

/-- A fresh `VoteModule`. -/
def freshState : VoteModuleState := ⟨[], [], []⟩

/-- `createPoll`, state-passing: validations throw without mutation; the
poll is stored, then the chain is created (a failing chain constructor
propagates after the poll was already stored, as in the source). The
fresh id (`poll_` + UUID slice) and the clock are oracle inputs. -/
def createPollM (H : String → String) (s : VoteModuleState)
    (params : CreatePollParams) (id : String) (now : Nat) :
    Except VoteError ManagedPoll × VoteModuleState :=
  if strTrim params.title = "" then (.error .invalidTitle, s)
  else if params.options.length < 2 then (.error .invalidOptions, s)
  else if params.durationMinutes ≤ 0 then (.error .invalidDuration, s)
  else
    let poll : ManagedPoll :=
      ⟨id, strTrim params.title, strTrim params.description, params.options,
        strUpper params.countryCode, .active, now,
        now + (params.durationMinutes * 60000).toNat, params.requireZkp⟩
    let s1 : VoteModuleState := { s with polls := aset id poll s.polls }
    match createChain H id (natRepr now) with
    | .error e => (.error (.thrown e), s1)
    | .ok chain => (.ok poll, { s1 with chains := aset id chain s1.chains })

/-- `getPoll`: auto-closes an active poll whose closing time has passed,
then returns it. -/
def getPollM (s : VoteModuleState) (pollId : String) (now : Nat) :
    Option ManagedPoll × VoteModuleState :=
  match alookup pollId s.polls with
  | none => (none, s)
  | some poll =>
    if poll.status = .active ∧ poll.closesAt ≤ now then
      let poll' := { poll with status := PollStatus.closed }
      (some poll', { s with polls := aset pollId poll' s.polls })
    else (some poll, s)

/-- `listPolls`: auto-closes every expired active poll, then filters by
country and status. -/
def listPollsM (s : VoteModuleState) (now : Nat)
    (countryFilter : Option String) (statusFilter : Option PollStatus) :
    List ManagedPoll × VoteModuleState :=
  let polls' := s.polls.map (fun kv =>
    if kv.2.status = PollStatus.active ∧ kv.2.closesAt ≤ now
    then (kv.1, { kv.2 with status := PollStatus.closed }) else kv)
  let out0 := polls'.map Prod.snd
  let out1 := match countryFilter with
    | some c => out0.filter (fun p => p.countryCode == strUpper c)
    | none => out0
  let out2 := match statusFilter with
    | some st => out1.filter (fun p => p.status == st)
    | none => out1
  (out2, { s with polls := polls' })

/-- Structural proof check of step 5: with a proof supplied, a falsy
`proof` field or a falsy proof nullifier is malformed; with no proof
supplied the check is skipped. -/
def proofMalformed : Option VoteProof → Bool
  | some p => !p.hasProof || p.nullifierHash == ""
  | none => false

/-- `castVote`, the full pipeline in source order: poll lookup (with its
auto-close side effect kept on every exit path), closed check, choice
bounds, nullifier pre-flight, structural proof check, chain append,
nullifier consumption, receipt. -/
def castVote (H : String → String) (s : VoteModuleState)
    (pollId nullifierHash : String) (choiceIndex : Int)
    (proof : Option VoteProof) (now : Nat) :
    Except VoteError VoteReceipt × VoteModuleState :=
  match getPollM s pollId now with
  | (none, s1) => (.error .pollNotFound, s1)
  | (some poll, s1) =>
    if poll.status = .closed then (.error .pollClosed, s1)
    else if choiceIndex < 0 ∨ (poll.options.length : Int) ≤ choiceIndex then
      (.error .invalidChoice, s1)
    else if (storeCheck s1.consumed pollId nullifierHash).isSome then
      (.error .alreadyVoted, s1)
    else if poll.requireZkp && proofMalformed proof then
      (.error .invalidProof, s1)
    else
      match alookup pollId s1.chains with
      | none => (.error .internalError, s1)
      | some chain =>
        match addVote H chain nullifierHash choiceIndex (natRepr now) with
        | (.added block, chain') =>
          let consumed' := (storeConsume s1.consumed pollId nullifierHash now).2
          (.ok ⟨true, block.hash, block.index, block.previousHash,
              block.timestamp, nullifierHash⟩,
            { s1 with
                chains := aset pollId chain' s1.chains
                consumed := consumed' })
        | (.rejected, _) => (.error .alreadyVoted, s1)
        | (.invalidChoice, _) =>
          (.error (.thrown "Choice index must be a non-negative integer"), s1)

-- ============================================================
-- Module transition system
-- ============================================================

/-- One public mutating-capable operation applied to the module state.
The `createPoll` step carries the freshness of the generated id
(`randomUUID` collisions are assumed impossible). -/
inductive OpStep (H : String → String) : VoteModuleState → VoteModuleState → Prop
  | createPoll (s : VoteModuleState) (params : CreatePollParams) (id : String)
      (now : Nat) : alookup id s.polls = none →
      OpStep H s (createPollM H s params id now).2
  | getPoll (s : VoteModuleState) (pollId : String) (now : Nat) :
      OpStep H s (getPollM s pollId now).2
  | listPolls (s : VoteModuleState) (now : Nat) (cf : Option String)
      (sf : Option PollStatus) : OpStep H s (listPollsM s now cf sf).2
  | castVote (s : VoteModuleState) (pollId nullifierHash : String)
      (choiceIndex : Int) (proof : Option VoteProof) (now : Nat) :
      OpStep H s (castVote H s pollId nullifierHash choiceIndex proof now).2

/-- Reflexive-transitive closure of `OpStep`. -/
inductive OpSteps (H : String → String) : VoteModuleState → VoteModuleState → Prop
  | refl (s : VoteModuleState) : OpSteps H s s
  | tail {s t u : VoteModuleState} : OpSteps H s t → OpStep H t u → OpSteps H s u

/-- States reachable from a fresh module. -/
def Reachable (H : String → String) (s : VoteModuleState) : Prop :=
  OpSteps H freshState s

/-- The forward order on poll statuses. -/
def statusRank : PollStatus → Nat
  | .upcoming => 0
  | .active => 1
  | .closed => 2

theorem getPollM_chains_consumed (s : VoteModuleState) (pid : String) (now : Nat) :
    (getPollM s pid now).2.chains = s.chains ∧
    (getPollM s pid now).2.consumed = s.consumed := by
  rw [getPollM]
  cases alookup pid s.polls with
  | none => exact ⟨rfl, rfl⟩
  | some poll =>
    dsimp only
    split <;> exact ⟨rfl, rfl⟩

theorem listPollsM_chains_consumed (s : VoteModuleState) (now : Nat)
    (cf : Option String) (sf : Option PollStatus) :
    (listPollsM s now cf sf).2.chains = s.chains ∧
    (listPollsM s now cf sf).2.consumed = s.consumed :=
  ⟨rfl, rfl⟩

theorem castVote_polls (H : String → String) (s : VoteModuleState)
    (pollId nullifierHash : String) (choiceIndex : Int)
    (proof : Option VoteProof) (now : Nat) :
    (castVote H s pollId nullifierHash choiceIndex proof now).2.polls =
      (getPollM s pollId now).2.polls := by
  rw [castVote]
  rcases hg : getPollM s pollId now with ⟨res, s1⟩
  cases res with
  | none => rfl
  | some poll =>
    simp only
    split
    · rfl
    · split
      · rfl
      · split
        · rfl
        · split
          · rfl
          · cases alookup pollId s1.chains with
            | none => rfl
            | some chain =>
              dsimp only
              cases hav : addVote H chain nullifierHash choiceIndex (natRepr now) with
              | mk ans chain' => cases ans <;> rfl

/-- `castVote` either leaves chains and store untouched (all rejection
paths) or takes the full success path: fresh pre-flight check, chain
append, then consumption. -/
theorem castVote_cases (H : String → String) (s : VoteModuleState)
    (pid n : String) (ch : Int) (pr : Option VoteProof) (now : Nat) :
    ((castVote H s pid n ch pr now).2.chains = (getPollM s pid now).2.chains ∧
     (castVote H s pid n ch pr now).2.consumed = (getPollM s pid now).2.consumed) ∨
    (storeCheck (getPollM s pid now).2.consumed pid n = none ∧
     ∃ chain block chain',
       alookup pid (getPollM s pid now).2.chains = some chain ∧
       addVote H chain n ch (natRepr now) = (.added block, chain') ∧
       (castVote H s pid n ch pr now).2 =
         { (getPollM s pid now).2 with
             chains := aset pid chain' (getPollM s pid now).2.chains
             consumed := (storeConsume (getPollM s pid now).2.consumed pid n now).2 }) := by
  rw [castVote]
  rcases hg : getPollM s pid now with ⟨res, s1⟩
  cases res with
  | none => exact Or.inl ⟨rfl, rfl⟩
  | some poll =>
    dsimp only
    split
    · exact Or.inl ⟨rfl, rfl⟩
    · split
      · exact Or.inl ⟨rfl, rfl⟩
      · split
        · exact Or.inl ⟨rfl, rfl⟩
        · next hsc =>
          split
          · exact Or.inl ⟨rfl, rfl⟩
          · cases halo : alookup pid s1.chains with
            | none => exact Or.inl ⟨rfl, rfl⟩
            | some chain =>
              dsimp only
              cases hav : addVote H chain n ch (natRepr now) with
              | mk ans chain' =>
                cases ans with
                | rejected => exact Or.inl ⟨rfl, rfl⟩
                | invalidChoice => exact Or.inl ⟨rfl, rfl⟩
                | added block =>
                  refine Or.inr ⟨?_, chain, block, chain', rfl, hav, rfl⟩
                  simpa using hsc

-- ============================================================
-- C1: nullifier/chain synchronisation invariant
-- ============================================================

/-- C1's synchronisation property: a nullifier is recorded as consumed
for a poll exactly when a non-genesis block carrying it sits in that
poll's chain (a missing map entry reads as the empty store / empty
chain). -/
def SyncInv (s : VoteModuleState) : Prop :=
  ∀ pid n, (∃ r ∈ (alookup pid s.consumed).getD [], r.nullifierHash = n) ↔
    (∃ b ∈ ((alookup pid s.chains).getD default).blocks,
      0 < b.index ∧ b.nullifierHash = n)

/-- Induction invariant: synchronisation plus bookkeeping facts (chain
and store entries only exist for stored polls; chains are nonempty with
a non-negative last index). -/
def ModInv (s : VoteModuleState) : Prop :=
  SyncInv s ∧
  (∀ pid, (alookup pid s.chains).isSome = true →
    (alookup pid s.polls).isSome = true) ∧
  (∀ pid, (alookup pid s.consumed).isSome = true →
    (alookup pid s.polls).isSome = true) ∧
  (∀ pid c, alookup pid s.chains = some c →
    c.blocks ≠ [] ∧ 0 ≤ (c.blocks.getLastD default).index)

theorem modInv_of_fields_eq (s s' : VoteModuleState)
    (hp : s'.polls = s.polls) (hc : s'.chains = s.chains)
    (hn : s'.consumed = s.consumed) (hinv : ModInv s) : ModInv s' := by
  obtain ⟨p, c, n⟩ := s'
  obtain ⟨p2, c2, n2⟩ := s
  simp only at hp hc hn
  subst hp
  subst hc
  subst hn
  exact hinv

theorem modInv_pollsKeysGrow (s s' : VoteModuleState)
    (hc : s'.chains = s.chains) (hn : s'.consumed = s.consumed)
    (hpolls : ∀ pid, (alookup pid s.polls).isSome = true →
      (alookup pid s'.polls).isSome = true)
    (hinv : ModInv s) : ModInv s' := by
  obtain ⟨hsync, hcp, hkp, hchain⟩ := hinv
  refine ⟨?_, ?_, ?_, ?_⟩
  · intro pid n
    rw [hc, hn]
    exact hsync pid n
  · intro pid h
    rw [hc] at h
    exact hpolls pid (hcp pid h)
  · intro pid h
    rw [hn] at h
    exact hpolls pid (hkp pid h)
  · intro pid c h
    rw [hc] at h
    exact hchain pid c h

theorem getPollM_polls_keys (s : VoteModuleState) (pid : String) (now : Nat)
    (pid' : String) :
    (alookup pid' (getPollM s pid now).2.polls).isSome =
      (alookup pid' s.polls).isSome := by
  rw [getPollM]
  cases hp : alookup pid s.polls with
  | none => rfl
  | some poll =>
    dsimp only
    split
    · show (alookup pid' (aset pid _ s.polls)).isSome = _
      rw [alookup_aset]
      by_cases h : pid = pid'
      · rw [if_pos h, ← h, hp]
        rfl
      · rw [if_neg h]
    · rfl

theorem modInv_getPoll (s : VoteModuleState) (pid : String) (now : Nat)
    (hinv : ModInv s) : ModInv (getPollM s pid now).2 := by
  refine modInv_pollsKeysGrow s _ ?_ ?_ ?_ hinv
  · exact (getPollM_chains_consumed s pid now).1
  · exact (getPollM_chains_consumed s pid now).2
  · intro pid' h
    rw [getPollM_polls_keys]
    exact h

theorem alookup_map_val {α β : Type} (g : String → α → β) :
    ∀ (l : List (String × α)) (pid : String),
      alookup pid (l.map (fun kv => (kv.1, g kv.1 kv.2))) =
      (alookup pid l).map (g pid) := by
  intro l pid
  induction l with
  | nil => rfl
  | cons kv rest ih =>
    obtain ⟨k, v⟩ := kv
    show (if k = pid then some (g k v) else alookup pid (rest.map _)) =
      ((if k = pid then some v else alookup pid rest).map (g pid))
    by_cases hk : k = pid
    · rw [if_pos hk, if_pos hk, hk]
      rfl
    · rw [if_neg hk, if_neg hk]
      exact ih

/-- The closing map of `listPolls`, as a key-preserving value map. -/
def closeAt (now : Nat) (p : ManagedPoll) : ManagedPoll :=
  if p.status = PollStatus.active ∧ p.closesAt ≤ now
  then { p with status := PollStatus.closed } else p

theorem listPollsM_map_eq (s : VoteModuleState) (now : Nat) :
    (s.polls.map (fun kv =>
      if kv.2.status = PollStatus.active ∧ kv.2.closesAt ≤ now
      then (kv.1, { kv.2 with status := PollStatus.closed }) else kv)) =
    s.polls.map (fun kv => (kv.1, closeAt now kv.2)) := by
  apply List.map_congr_left
  intro kv _
  rw [closeAt]
  by_cases h : kv.2.status = PollStatus.active ∧ kv.2.closesAt ≤ now
  · rw [if_pos h, if_pos h]
  · rw [if_neg h, if_neg h]

theorem listPollsM_polls_lookup (s : VoteModuleState) (now : Nat)
    (cf : Option String) (sf : Option PollStatus) (pid : String) :
    alookup pid (listPollsM s now cf sf).2.polls =
      (alookup pid s.polls).map (fun p => closeAt now p) := by
  show alookup pid (s.polls.map _) = _
  rw [listPollsM_map_eq]
  exact alookup_map_val (fun _ p => closeAt now p) s.polls pid

theorem modInv_listPolls (s : VoteModuleState) (now : Nat)
    (cf : Option String) (sf : Option PollStatus)
    (hinv : ModInv s) : ModInv (listPollsM s now cf sf).2 := by
  refine modInv_pollsKeysGrow s _ rfl rfl ?_ hinv
  intro pid h
  rw [listPollsM_polls_lookup]
  cases hp : alookup pid s.polls with
  | none => rw [hp] at h; exact absurd h (by simp)
  | some p => rfl

theorem aset_keys_grow {α : Type} (k : String) (v : α) (l : List (String × α))
    (pid : String) (h : (alookup pid l).isSome = true) :
    (alookup pid (aset k v l)).isSome = true := by
  rw [alookup_aset]
  by_cases hk : k = pid
  · rw [if_pos hk]
    rfl
  · rw [if_neg hk]
    exact h

theorem modInv_createPoll (H : String → String) (s : VoteModuleState)
    (params : CreatePollParams) (id : String) (now : Nat)
    (hfresh : alookup id s.polls = none) (hinv : ModInv s) :
    ModInv (createPollM H s params id now).2 := by
  obtain ⟨hsync, hcp, hkp, hchain⟩ := hinv
  have hconsumed_none : alookup id s.consumed = none := by
    cases hx : alookup id s.consumed with
    | none => rfl
    | some v =>
      have := hkp id (by rw [hx]; rfl)
      rw [hfresh] at this
      exact absurd this (by simp)
  rw [createPollM]
  split
  · exact ⟨hsync, hcp, hkp, hchain⟩
  · split
    · exact ⟨hsync, hcp, hkp, hchain⟩
    · split
      · exact ⟨hsync, hcp, hkp, hchain⟩
      · dsimp only
        cases hcc : createChain H id (natRepr now) with
        | error e =>
          dsimp only
          refine ⟨hsync, ?_, ?_, hchain⟩
          · intro pid h
            exact aset_keys_grow id _ s.polls pid (hcp pid h)
          · intro pid h
            exact aset_keys_grow id _ s.polls pid (hkp pid h)
        | ok chain =>
          rw [createChain] at hcc
          split at hcc
          · exact absurd hcc (by simp)
          · obtain rfl := Except.ok.inj hcc
            dsimp only
            refine ⟨?_, ?_, ?_, ?_⟩
            · intro pid n
              by_cases hpid : id = pid
              · show (∃ r ∈ (alookup pid s.consumed).getD [], r.nullifierHash = n) ↔ _
                rw [alookup_aset, if_pos hpid, ← hpid, hconsumed_none]
                simp only [Option.getD_some, Option.getD_none]
                constructor
                · rintro ⟨r, hr, _⟩
                  exact absurd hr (List.not_mem_nil r)
                · rintro ⟨b, hb, hidx, _⟩
                  simp only [List.mem_singleton] at hb
                  subst hb
                  exact absurd hidx (show ¬ (0 : Int) < 0 by omega)
              · show (∃ r ∈ (alookup pid s.consumed).getD [], r.nullifierHash = n) ↔ _
                rw [alookup_aset, if_neg hpid]
                exact hsync pid n
            · intro pid h
              rw [alookup_aset] at h
              by_cases hpid : id = pid
              · rw [alookup_aset, if_pos hpid]
                rfl
              · rw [if_neg hpid] at h
                exact aset_keys_grow id _ s.polls pid (hcp pid h)
            · intro pid h
              exact aset_keys_grow id _ s.polls pid (hkp pid h)
            · intro pid c h
              rw [alookup_aset] at h
              by_cases hpid : id = pid
              · rw [if_pos hpid] at h
                obtain rfl := Option.some.inj h
                refine ⟨by simp, ?_⟩
                show (0 : Int) ≤ 0
                omega
              · rw [if_neg hpid] at h
                exact hchain pid c h

theorem addVote_added_shape (H : String → String) (c : VoteHashChain)
    (n : String) (ch : Int) (ts : String) (b : VoteBlock) (c' : VoteHashChain)
    (h : addVote H c n ch ts = (.added b, c')) :
    c'.blocks = c.blocks ++ [b] ∧
      b.index = (c.blocks.getLastD default).index + 1 ∧
      b.nullifierHash = n := by
  rw [addVote] at h
  split at h
  · exact absurd h (by simp)
  · split at h
    · exact absurd h (by simp)
    · have h1 := congrArg Prod.fst h
      have h2 := congrArg Prod.snd h
      simp only at h1 h2
      obtain rfl := AddVoteAns.added.inj h1
      subst h2
      exact ⟨rfl, rfl, rfl⟩

theorem modInv_castVote (H : String → String) (s : VoteModuleState)
    (pid n : String) (ch : Int) (pr : Option VoteProof) (now : Nat)
    (hinv : ModInv s) : ModInv (castVote H s pid n ch pr now).2 := by
  have hinv1 := modInv_getPoll s pid now hinv
  obtain ⟨hsync, hcp, hkp, hchain⟩ := hinv1
  have hpolls := castVote_polls H s pid n ch pr now
  rcases castVote_cases H s pid n ch pr now with
    ⟨hc, hn⟩ | ⟨hsc, chain, block, chain', halo, hav, hstate⟩
  · exact modInv_of_fields_eq _ _ hpolls hc hn ⟨hsync, hcp, hkp, hchain⟩
  · obtain ⟨hblocks', hbidx, hbn⟩ :=
      addVote_added_shape H chain n ch (natRepr now) block chain' hav
    obtain ⟨hne, hlast⟩ := hchain pid chain halo
    have hpollSome : (alookup pid (getPollM s pid now).2.polls).isSome = true :=
      hcp pid (by rw [halo]; rfl)
    rw [hstate]
    have hcons : (storeConsume (getPollM s pid now).2.consumed pid n now).2 =
        aset pid (((alookup pid (getPollM s pid now).2.consumed).getD []) ++
          [⟨n, pid, now⟩]) (getPollM s pid now).2.consumed := by
      rw [storeConsume, hsc]
    rw [hcons]
    refine ⟨?_, ?_, ?_, ?_⟩
    · intro pid' n'
      dsimp only
      by_cases hpid : pid = pid'
      · subst hpid
        rw [alookup_aset, if_pos rfl, alookup_aset, if_pos rfl]
        simp only [Option.getD_some]
        rw [hblocks']
        constructor
        · rintro ⟨r, hr, hrn⟩
          rcases List.mem_append.mp hr with h1 | h2
          · obtain ⟨b, hb, hbi, hbn'⟩ := (hsync pid n').mp ⟨r, h1, hrn⟩
            rw [halo] at hb
            simp only [Option.getD_some] at hb
            exact ⟨b, List.mem_append.mpr (Or.inl hb), hbi, hbn'⟩
          · simp only [List.mem_singleton] at h2
            subst h2
            refine ⟨block, List.mem_append.mpr (Or.inr (List.mem_singleton.mpr rfl)), ?_, ?_⟩
            · rw [hbidx]
              omega
            · rw [hbn]
              exact hrn
        · rintro ⟨b, hb, hbi, hbn'⟩
          rcases List.mem_append.mp hb with h1 | h2
          · obtain ⟨r, hr, hrn⟩ := (hsync pid n').mpr
              ⟨b, by rw [halo]; simpa using h1, hbi, hbn'⟩
            exact ⟨r, List.mem_append.mpr (Or.inl hr), hrn⟩
          · simp only [List.mem_singleton] at h2
            subst h2
            refine ⟨⟨n, pid, now⟩,
              List.mem_append.mpr (Or.inr (List.mem_singleton.mpr rfl)), ?_⟩
            show n = n'
            rw [← hbn]
            exact hbn'
      · rw [alookup_aset, if_neg hpid, alookup_aset, if_neg hpid]
        exact hsync pid' n'
    · intro pid' h
      dsimp only at h ⊢
      rw [alookup_aset] at h
      by_cases hpid : pid = pid'
      · subst hpid
        exact hpollSome
      · rw [if_neg hpid] at h
        exact hcp pid' h
    · intro pid' h
      dsimp only at h ⊢
      rw [alookup_aset] at h
      by_cases hpid : pid = pid'
      · subst hpid
        exact hpollSome
      · rw [if_neg hpid] at h
        exact hkp pid' h
    · intro pid' c hc
      dsimp only at hc
      rw [alookup_aset] at hc
      by_cases hpid : pid = pid'
      · rw [if_pos hpid] at hc
        obtain rfl := Option.some.inj hc
        refine ⟨by rw [hblocks']; simp, ?_⟩
        rw [hblocks', List.getLastD_concat, hbidx]
        omega
      · rw [if_neg hpid] at hc
        exact hchain pid' c hc

theorem modInv_step (H : String → String) {s s' : VoteModuleState}
    (hstep : OpStep H s s') (hinv : ModInv s) : ModInv s' := by
  cases hstep with
  | createPoll params id now hfresh =>
    exact modInv_createPoll H s params id now hfresh hinv
  | getPoll pid now => exact modInv_getPoll s pid now hinv
  | listPolls now cf sf => exact modInv_listPolls s now cf sf hinv
  | castVote pid n ch pr now => exact modInv_castVote H s pid n ch pr now hinv

theorem modInv_fresh : ModInv freshState := by
  refine ⟨?_, ?_, ?_, ?_⟩
  · intro pid n
    constructor
    · rintro ⟨r, hr, _⟩
      exact absurd hr (List.not_mem_nil r)
    · rintro ⟨b, hb, _⟩
      exact absurd hb (List.not_mem_nil b)
  · intro pid h
    exact Bool.noConfusion h
  · intro pid h
    exact Bool.noConfusion h
  · intro pid c h
    exact Option.noConfusion h

theorem modInv_reachable (H : String → String) {s : VoteModuleState}
    (h : Reachable H s) : ModInv s := by
  induction h with
  | refl => exact modInv_fresh
  | tail hsteps hstep ih => exact modInv_step H hstep ih

/-- C1. On every state a fresh `VoteModule` can reach through its public
operations — in particular through every sequence of `castVote` calls,
whether each call returns a receipt or throws — a nullifier is recorded
as consumed in the `NullifierStore` for a poll exactly when a non-genesis
block carrying it exists in that poll's hash chain: neither a consumed
nullifier without its chain block nor a chain block whose nullifier is
not consumed is reachable. (`createPoll` steps carry the freshness of the
random id.) -/
theorem nullifier_chain_sync (H : String → String) (s : VoteModuleState)
    (h : Reachable H s) : SyncInv s :=
  (modInv_reachable H h).1

/-- Witness for C1 after one `castVote` on the fresh module. -/
theorem nullifier_chain_sync_witness :
    SyncInv (castVote hId freshState "p1" "n1" 0 none 5).2 :=
  nullifier_chain_sync hId _
    (OpSteps.tail (OpSteps.refl freshState)
      (OpStep.castVote freshState "p1" "n1" 0 none 5))

theorem createPollM_polls_lookup (H : String → String) (s : VoteModuleState)
    (params : CreatePollParams) (id : String) (now : Nat) (pid : String) :
    alookup pid (createPollM H s params id now).2.polls = alookup pid s.polls ∨
    (pid = id ∧ ∃ poll, alookup pid (createPollM H s params id now).2.polls = some poll ∧
      poll.status = .active) := by
  rw [createPollM]
  split
  · exact Or.inl rfl
  · split
    · exact Or.inl rfl
    · split
      · exact Or.inl rfl
      · dsimp only
        by_cases hpe : pid = id
        · cases createChain H id (natRepr now) with
          | error e =>
            dsimp only
            exact Or.inr ⟨hpe, _, by rw [alookup_aset, if_pos hpe.symm], rfl⟩
          | ok chain =>
            dsimp only
            exact Or.inr ⟨hpe, _, by rw [alookup_aset, if_pos hpe.symm], rfl⟩
        · cases createChain H id (natRepr now) with
          | error e =>
            dsimp only
            refine Or.inl ?_
            rw [alookup_aset, if_neg (fun h => hpe h.symm)]
          | ok chain =>
            dsimp only
            refine Or.inl ?_
            rw [alookup_aset, if_neg (fun h => hpe h.symm)]

theorem getPollM_polls_lookup (s : VoteModuleState) (pid0 : String) (now : Nat)
    (pid : String) :
    alookup pid (getPollM s pid0 now).2.polls = alookup pid s.polls ∨
    (pid = pid0 ∧ ∃ p, alookup pid s.polls = some p ∧ p.status = .active ∧
      p.closesAt ≤ now ∧
      alookup pid (getPollM s pid0 now).2.polls =
        some { p with status := PollStatus.closed }) := by
  rw [getPollM]
  cases hp0 : alookup pid0 s.polls with
  | none => exact Or.inl rfl
  | some poll =>
    dsimp only
    split
    · next hcond =>
      by_cases hpe : pid = pid0
      · refine Or.inr ⟨hpe, poll, by rw [hpe, hp0], hcond.1, hcond.2, ?_⟩
        show alookup pid (aset pid0 _ s.polls) = _
        rw [alookup_aset, if_pos hpe.symm]
      · refine Or.inl ?_
        show alookup pid (aset pid0 _ s.polls) = _
        rw [alookup_aset, if_neg (fun h => hpe h.symm)]
    · exact Or.inl rfl

theorem step_poll_mono (H : String → String) {s s' : VoteModuleState}
    (hstep : OpStep H s s') (pid : String) (p : ManagedPoll)
    (hp : alookup pid s.polls = some p) :
    ∃ p', alookup pid s'.polls = some p' ∧
      statusRank p.status ≤ statusRank p'.status := by
  cases hstep with
  | createPoll params id now hfresh =>
    rcases createPollM_polls_lookup H s params id now pid with heq | ⟨hpe, poll, hsome, _⟩
    · exact ⟨p, heq.trans hp, le_refl _⟩
    · rw [hpe, hfresh] at hp
      exact absurd hp (by simp)
  | getPoll pid0 now =>
    rcases getPollM_polls_lookup s pid0 now pid with heq | ⟨_, q, hq, hact, _, hsome⟩
    · exact ⟨p, heq.trans hp, le_refl _⟩
    · rw [hp] at hq
      obtain rfl := Option.some.inj hq.symm
      refine ⟨_, hsome, ?_⟩
      rw [hact]
      show statusRank PollStatus.active ≤ statusRank PollStatus.closed
      rw [statusRank, statusRank]
      omega
  | listPolls now cf sf =>
    rw [listPollsM_polls_lookup, hp]
    refine ⟨closeAt now p, rfl, ?_⟩
    rw [closeAt]
    split
    · next hcond =>
      rw [hcond.1]
      show statusRank PollStatus.active ≤ statusRank PollStatus.closed
      rw [statusRank, statusRank]
      omega
    · exact le_refl _
  | castVote pid0 n ch pr now =>
    rw [castVote_polls]
    rcases getPollM_polls_lookup s pid0 now pid with heq | ⟨_, q, hq, hact, _, hsome⟩
    · exact ⟨p, heq.trans hp, le_refl _⟩
    · rw [hp] at hq
      obtain rfl := Option.some.inj hq.symm
      refine ⟨_, hsome, ?_⟩
      rw [hact]
      show statusRank PollStatus.active ≤ statusRank PollStatus.closed
      rw [statusRank, statusRank]
      omega

theorem steps_poll_mono (H : String → String) {s s' : VoteModuleState}
    (hsteps : OpSteps H s s') (pid : String) (p : ManagedPoll)
    (hp : alookup pid s.polls = some p) :
    ∃ p', alookup pid s'.polls = some p' ∧
      statusRank p.status ≤ statusRank p'.status := by
  induction hsteps with
  | refl => exact ⟨p, hp, le_refl _⟩
  | tail hsteps hstep ih =>
    obtain ⟨q, hq, hrank⟩ := ih
    obtain ⟨p', hp', hrank'⟩ := step_poll_mono H hstep pid q hq
    exact ⟨p', hp', le_trans hrank hrank'⟩

theorem status_closed_of_rank (p q : PollStatus)
    (h : statusRank p ≤ statusRank q) (hp : p = .closed) : q = .closed := by
  subst hp
  cases q with
  | upcoming => simp [statusRank] at h
  | active => simp [statusRank] at h
  | closed => rfl

/-- C9. (i) Along every sequence of module operations, a stored poll's
status only moves forward along upcoming → active → closed, and once
closed it never returns to active or upcoming. (ii) and (iii): closure is
lazy and time-driven — after a read (`getPoll` of the poll, or any
`listPolls`), the poll is closed exactly when it was already closed or it
was active with its closing time passed. -/
theorem poll_status_forward_lazy_close (H : String → String) :
    (∀ s s', OpSteps H s s' → ∀ pid p p',
      alookup pid s.polls = some p → alookup pid s'.polls = some p' →
      statusRank p.status ≤ statusRank p'.status ∧
        (p.status = .closed → p'.status = .closed)) ∧
    (∀ (s : VoteModuleState) (pid : String) (now : Nat) (p p' : ManagedPoll),
      alookup pid s.polls = some p →
      alookup pid (getPollM s pid now).2.polls = some p' →
      (p'.status = .closed ↔
        p.status = .closed ∨ (p.status = .active ∧ p.closesAt ≤ now))) ∧
    (∀ (s : VoteModuleState) (now : Nat) (cf : Option String)
      (sf : Option PollStatus) (pid : String) (p p' : ManagedPoll),
      alookup pid s.polls = some p →
      alookup pid (listPollsM s now cf sf).2.polls = some p' →
      (p'.status = .closed ↔
        p.status = .closed ∨ (p.status = .active ∧ p.closesAt ≤ now))) := by
  refine ⟨?_, ?_, ?_⟩
  · intro s s' hsteps pid p p' hp hp'
    obtain ⟨q, hq, hrank⟩ := steps_poll_mono H hsteps pid p hp
    rw [hp'] at hq
    obtain rfl := Option.some.inj hq
    exact ⟨hrank, status_closed_of_rank _ _ hrank⟩
  · intro s pid now p p' hp hp'
    rw [getPollM, hp] at hp'
    dsimp only at hp'
    by_cases hcond : p.status = PollStatus.active ∧ p.closesAt ≤ now
    · rw [if_pos hcond, alookup_aset, if_pos rfl] at hp'
      obtain rfl := Option.some.inj hp'
      exact ⟨fun _ => Or.inr hcond, fun _ => rfl⟩
    · rw [if_neg hcond] at hp'
      dsimp only at hp'
      rw [hp] at hp'
      obtain rfl := Option.some.inj hp'
      constructor
      · intro h
        exact Or.inl h
      · rintro (h | h)
        · exact h
        · exact absurd h hcond
  · intro s now cf sf pid p p' hp hp'
    rw [listPollsM_polls_lookup, hp] at hp'
    simp only [Option.map_some'] at hp'
    obtain rfl := Option.some.inj hp'
    rw [closeAt]
    by_cases hcond : p.status = PollStatus.active ∧ p.closesAt ≤ now
    · rw [if_pos hcond]
      exact ⟨fun _ => Or.inr hcond, fun _ => rfl⟩
    · rw [if_neg hcond]
      constructor
      · intro h
        exact Or.inl h
      · rintro (h | h)
        · exact h
        · exact absurd h hcond

/-- An active poll over options a, b, closing at time 100. -/
def pollA : ManagedPoll :=
  ⟨"p1", "t", "d", ["a", "b"], "US", .active, 0, 100, false⟩

/-- A module state holding only `pollA`. -/
def sA : VoteModuleState := ⟨[("p1", pollA)], [], []⟩

/-- Witness for C9: reading `pollA` at its closing time closes it. -/
theorem poll_status_forward_lazy_close_witness :
    ({ pollA with status := PollStatus.closed }).status = PollStatus.closed ↔
      pollA.status = .closed ∨ (pollA.status = .active ∧ pollA.closesAt ≤ 100) :=
  (poll_status_forward_lazy_close hId).2.1 sA "p1" 100 pollA
    { pollA with status := PollStatus.closed } (by decide) (by decide)

theorem step_no_upcoming (H : String → String) {s s' : VoteModuleState}
    (hstep : OpStep H s s')
    (hup : ∀ pid p, alookup pid s.polls = some p → p.status ≠ .upcoming) :
    ∀ pid p', alookup pid s'.polls = some p' → p'.status ≠ .upcoming := by
  intro pid p' hp'
  cases hstep with
  | createPoll params id now hfresh =>
    rcases createPollM_polls_lookup H s params id now pid with heq | ⟨_, poll, hsome, hact⟩
    · rw [heq] at hp'
      exact hup pid p' hp'
    · rw [hsome] at hp'
      obtain rfl := Option.some.inj hp'
      rw [hact]
      intro h
      exact PollStatus.noConfusion h
  | getPoll pid0 now =>
    rcases getPollM_polls_lookup s pid0 now pid with heq | ⟨_, q, _, _, _, hsome⟩
    · rw [heq] at hp'
      exact hup pid p' hp'
    · rw [hsome] at hp'
      obtain rfl := Option.some.inj hp'
      intro h
      exact PollStatus.noConfusion h
  | listPolls now cf sf =>
    rw [listPollsM_polls_lookup] at hp'
    cases hq : alookup pid s.polls with
    | none =>
      rw [hq] at hp'
      exact absurd hp' (by simp)
    | some q =>
      rw [hq] at hp'
      simp only [Option.map_some'] at hp'
      obtain rfl := Option.some.inj hp'
      rw [closeAt]
      split
      · intro h
        exact PollStatus.noConfusion h
      · exact hup pid q hq
  | castVote pid0 n ch pr now =>
    rw [castVote_polls] at hp'
    rcases getPollM_polls_lookup s pid0 now pid with heq | ⟨_, q, _, _, _, hsome⟩
    · rw [heq] at hp'
      exact hup pid p' hp'
    · rw [hsome] at hp'
      obtain rfl := Option.some.inj hp'
      intro h
      exact PollStatus.noConfusion h

/-- C10. `createPoll` always returns a poll whose status is `active`, so
the `upcoming` status is unreachable: every poll stored in a reachable
module state is `active` or `closed`. -/
theorem createPoll_always_active (H : String → String) :
    (∀ (s : VoteModuleState) (params : CreatePollParams) (id : String)
      (now : Nat) (poll : ManagedPoll) (s' : VoteModuleState),
      createPollM H s params id now = (.ok poll, s') → poll.status = .active) ∧
    (∀ s, Reachable H s → ∀ pid p, alookup pid s.polls = some p →
      p.status = .active ∨ p.status = .closed) := by
  constructor
  · intro s params id now poll s' heq
    rw [createPollM] at heq
    split at heq
    · exact absurd (congrArg Prod.fst heq) (by simp)
    · split at heq
      · exact absurd (congrArg Prod.fst heq) (by simp)
      · split at heq
        · exact absurd (congrArg Prod.fst heq) (by simp)
        · dsimp only at heq
          cases hcc : createChain H id (natRepr now) with
          | error e =>
            rw [hcc] at heq
            dsimp only at heq
            exact absurd (congrArg Prod.fst heq) (by simp)
          | ok chain =>
            rw [hcc] at heq
            dsimp only at heq
            have h1 := congrArg Prod.fst heq
            simp only at h1
            obtain rfl := Except.ok.inj h1
            rfl
  · intro s hreach
    have hup : ∀ pid p, alookup pid s.polls = some p → p.status ≠ .upcoming := by
      induction hreach with
      | refl =>
        intro pid p hp
        exact Option.noConfusion hp
      | tail hsteps hstep ih => exact step_no_upcoming H hstep ih
    intro pid p hp
    have := hup pid p hp
    cases hst : p.status with
    | upcoming => exact absurd hst this
    | active => exact Or.inl rfl
    | closed => exact Or.inr rfl

/-- Poll-creation parameters for the C10 witness. -/
def paramsB : CreatePollParams := ⟨"T", "D", ["a", "b"], "us", 10, false⟩

/-- The poll created by `paramsB` on a fresh module at time 0. -/
def pollB : ManagedPoll :=
  match (createPollM hId freshState paramsB "poll_1" 0).1 with
  | .ok p => p
  | .error _ => default

/-- The module state after that creation. -/
def sB : VoteModuleState := (createPollM hId freshState paramsB "poll_1" 0).2

/-- Witness for C10: the created poll is active, and the stored poll in
the reached state is active-or-closed. -/
theorem createPoll_always_active_witness :
    pollB.status = PollStatus.active ∧
      (pollB.status = PollStatus.active ∨ pollB.status = PollStatus.closed) :=
  ⟨(createPoll_always_active hId).1 freshState paramsB "poll_1" 0 pollB sB (by decide),
   (createPoll_always_active hId).2 sB
     (OpSteps.tail (OpSteps.refl freshState)
       (OpStep.createPoll freshState paramsB "poll_1" 0 rfl))
     "poll_1" pollB (by decide)⟩
